import Mathlib

/-!
Verification of the TTRPG-PDF-Text-Extractor core pipeline
(`src/pdf_extractor/processor.py` and `src/pdf_extractor/markdown_converter.py`).

Modelling conventions (shallow embedding):
* Python strings are modelled as `List Char`; UTF-8 byte sizes use `Char.utf8Size`
  (identical to `len(s.encode("utf-8"))` for the characters involved).
* Python floats are modelled as `ℚ`; all float operations appearing in the
  modelled code (`+`, `/ 2`, `*`, `abs`, comparisons) are exact on the rationals.
* Python dicts holding blocks/pages are modelled as structures; the optional
  `"bbox"` key is an `Option` field, and dict-lookup failure (KeyError) is
  modelled with `Except`.
* Python's `sorted`/`list.sort` are stable sorts; they are modelled with
  Mathlib's `List.insertionSort`, which is stable for the non-strict key order
  `fun a b => key a ≤ key b` (any two stable sorts by the same key coincide).
* Regex character classes (`\d`, `\s`, lowercasing) are modelled over ASCII,
  which is faithful for all inputs considered here.
-/

namespace PdfExtractor

/-! ## Chunking — `MarkdownConverter._chunk_text` -/

/-- UTF-8 byte length of a text, `len(text.encode("utf-8"))`. -/
def byteLen (t : List Char) : Nat := (t.map Char.utf8Size).sum

/-- Worker for `re.split(r"(\n\n+)", text)`: `cur` is the reversed accumulator of
the current non-separator token, `nl` the number of pending newline characters
not yet classified as text or separator. A run of ≥ 2 newlines is a captured
separator token; a single newline belongs to the surrounding text token. -/
def splitParasGo (cur : List Char) (nl : Nat) : List Char → List (List Char)
  | [] =>
    if 2 ≤ nl then [cur.reverse, List.replicate nl '\n', []]
    else [cur.reverse ++ List.replicate nl '\n']
  | c :: rest =>
    if c = '\n' then splitParasGo cur (nl + 1) rest
    else if 2 ≤ nl then
      cur.reverse :: List.replicate nl '\n' :: splitParasGo [c] 0 rest
    else splitParasGo (c :: (List.replicate nl '\n' ++ cur)) 0 rest

/-- `re.split(r"(\n\n+)", text)`: the token list (text pieces and the captured
double-newline separators, in order, empty pieces included). -/
def splitParas (t : List Char) : List (List Char) := splitParasGo [] 0 t

/-- Worker for Python `str.split("\n")` (keeps empty pieces). -/
def splitLinesGo (cur : List Char) : List Char → List (List Char)
  | [] => [cur.reverse]
  | c :: rest =>
    if c = '\n' then cur.reverse :: splitLinesGo [] rest
    else splitLinesGo (c :: cur) rest

/-- Python `para.split("\n")`. -/
def splitLines (t : List Char) : List (List Char) := splitLinesGo [] t

/-- Chunker state: (finished chunks, current chunk contents, current byte size).
The Python code keeps `current_chunk` as a list of pieces and joins them with
`"".join`; we keep the joined contents directly. -/
abbrev ChunkState : Type := List (List Char) × List Char × Nat

/-- One iteration of the inner `for line in lines` loop of `_chunk_text`
(the oversized-paragraph path): append `line + "\n"`, flushing first if the
current chunk is non-empty and would overflow. -/
def lineStep (limit : Nat) (st : ChunkState) (line : List Char) : ChunkState :=
  let lwn := line ++ ['\n']
  let lsize := byteLen lwn
  if st.2.2 + lsize > limit ∧ st.2.1 ≠ [] then (st.1 ++ [st.2.1], lwn, lsize)
  else (st.1, st.2.1 ++ lwn, st.2.2 + lsize)

/-- One iteration of the outer `for para in paragraphs` loop of `_chunk_text`. -/
def paraStep (limit : Nat) (st : ChunkState) (para : List Char) : ChunkState :=
  let psize := byteLen para
  if psize > limit then
    -- flush the current chunk, then re-split the oversized token by lines
    let st1 : ChunkState := if st.2.1 ≠ [] then (st.1 ++ [st.2.1], [], 0) else st
    (splitLines para).foldl (lineStep limit) st1
  else if st.2.2 + psize > limit ∧ st.2.1 ≠ [] then (st.1 ++ [st.2.1], para, psize)
  else (st.1, st.2.1 ++ para, st.2.2 + psize)

/-- `_chunk_text`'s main loop for a byte limit (`limit = chunk_size_kb * 1024`). -/
def chunkWithLimit (limit : Nat) (text : List Char) : List (List Char) :=
  let st := (splitParas text).foldl (paraStep limit) ([], [], 0)
  if st.2.1 ≠ [] then st.1 ++ [st.2.1] else st.1

/-- `MarkdownConverter._chunk_text(text)` with `self.chunk_size_kb = chunk_size_kb`.
A non-positive `chunk_size_kb` returns the whole text as a single chunk. -/
def chunk_text (chunk_size_kb : Nat) (text : List Char) : List (List Char) :=
  if chunk_size_kb = 0 then [text]
  else chunkWithLimit (chunk_size_kb * 1024) text

/-- What the chunker reproduces for one token: an oversized token gets one extra
newline appended (its line re-split appends `"\n"` to every line, including the
last), any other token is passed through verbatim. -/
def chunkTok (limit : Nat) (p : List Char) : List Char :=
  if byteLen p > limit then p ++ ['\n'] else p

theorem splitParasGo_flatten (rest : List Char) : ∀ (cur : List Char) (nl : Nat),
    (splitParasGo cur nl rest).flatten = cur.reverse ++ List.replicate nl '\n' ++ rest := by
  -- (proof by induction on the remaining characters)
  induction rest with
  | nil =>
    intro cur nl
    by_cases h : 2 ≤ nl <;> simp [splitParasGo, h]
  | cons c rest ih =>
    intro cur nl
    by_cases hc : c = '\n'
    · subst hc
      rw [splitParasGo, if_pos rfl, ih, List.replicate_succ']
      simp
    · by_cases h2 : 2 ≤ nl
      · simp only [splitParasGo, if_neg hc, if_pos h2, List.flatten_cons, ih]
        simp
      · simp only [splitParasGo, if_neg hc, if_neg h2, ih]
        simp

theorem splitParas_flatten (t : List Char) : (splitParas t).flatten = t := by
  simpa using splitParasGo_flatten t [] 0

theorem splitLinesGo_newline_flatten (rest : List Char) : ∀ (cur : List Char),
    ((splitLinesGo cur rest).map (· ++ ['\n'])).flatten = cur.reverse ++ rest ++ ['\n'] := by
  induction rest with
  | nil => intro cur; simp [splitLinesGo]
  | cons c rest ih =>
    intro cur
    by_cases hc : c = '\n'
    · subst hc; simp [splitLinesGo, ih]
    · simp [splitLinesGo, hc, ih]

/-- Re-splitting a token by lines and appending `"\n"` to each line reproduces
the token followed by one extra newline. -/
theorem splitLines_newline_flatten (p : List Char) :
    ((splitLines p).map (· ++ ['\n'])).flatten = p ++ ['\n'] := by
  simpa using splitLinesGo_newline_flatten p []

/-- The concatenation of all finished chunks plus the pending chunk. -/
def stFlat (st : ChunkState) : List Char := st.1.flatten ++ st.2.1

theorem stFlat_lineStep (limit : Nat) (st : ChunkState) (line : List Char) :
    stFlat (lineStep limit st line) = stFlat st ++ line ++ ['\n'] := by
  unfold lineStep stFlat
  dsimp only
  split <;> simp [List.append_assoc]

theorem stFlat_linesFold (limit : Nat) (lines : List (List Char)) : ∀ (st : ChunkState),
    stFlat (lines.foldl (lineStep limit) st) =
      stFlat st ++ (lines.map (· ++ ['\n'])).flatten := by
  induction lines with
  | nil => intro st; simp
  | cons l ls ih =>
    intro st
    simp [List.foldl_cons, ih, stFlat_lineStep, List.append_assoc]

theorem stFlat_paraStep (limit : Nat) (st : ChunkState) (para : List Char) :
    stFlat (paraStep limit st para) = stFlat st ++ chunkTok limit para := by
  by_cases hbig : byteLen para > limit
  · have h1 : stFlat (if st.2.1 ≠ [] then ((st.1 ++ [st.2.1] : List (List Char)), ([] : List Char), (0 : Nat))
        else st) = stFlat st := by
      by_cases hc : st.2.1 ≠ [] <;> simp [hc, stFlat]
    simp only [paraStep, if_pos hbig, stFlat_linesFold, h1, splitLines_newline_flatten,
      chunkTok, if_pos hbig]
  · by_cases hover : st.2.2 + byteLen para > limit ∧ st.2.1 ≠ [] <;>
      simp [paraStep, hbig, hover, chunkTok, stFlat, List.append_assoc]

theorem stFlat_parasFold (limit : Nat) (ps : List (List Char)) : ∀ (st : ChunkState),
    stFlat (ps.foldl (paraStep limit) st) = stFlat st ++ (ps.map (chunkTok limit)).flatten := by
  induction ps with
  | nil => intro st; simp
  | cons p ps ih =>
    intro st
    simp [List.foldl_cons, ih, stFlat_paraStep, List.append_assoc]

/-- The concatenation of the returned chunks equals the token list with each
oversized token reproduced with one extra trailing newline. -/
theorem chunkWithLimit_flatten (limit : Nat) (text : List Char) :
    (chunkWithLimit limit text).flatten = ((splitParas text).map (chunkTok limit)).flatten := by
  have h := stFlat_parasFold limit (splitParas text) ([], [], 0)
  simp only [stFlat, List.flatten_nil, List.nil_append] at h
  unfold chunkWithLimit
  by_cases hc : ((splitParas text).foldl (paraStep limit) ([], [], 0)).2.1 = []
  · rw [if_neg (by simpa using hc)]
    rw [hc, List.append_nil] at h
    exact h
  · rw [if_pos (by simpa using hc)]
    simpa using h

/-- When no token exceeds the limit, chunking is lossless. -/
theorem chunkWithLimit_lossless (limit : Nat) (text : List Char)
    (h : ∀ p ∈ splitParas text, byteLen p ≤ limit) :
    (chunkWithLimit limit text).flatten = text := by
  rw [chunkWithLimit_flatten]
  have hmap : (splitParas text).map (chunkTok limit) = splitParas text := by
    conv_rhs => rw [← List.map_id (splitParas text)]
    apply List.map_congr_left
    intro p hp
    have hle := h p hp
    unfold chunkTok
    rw [if_neg (by omega)]
    rfl
  rw [hmap, splitParas_flatten]

theorem splitParasGo_no_newline (rest : List Char) : ∀ cur, (∀ c ∈ rest, c ≠ '\n') →
    splitParasGo cur 0 rest = [cur.reverse ++ rest] := by
  induction rest with
  | nil => intro cur _; simp [splitParasGo]
  | cons c rest ih =>
    intro cur hnn
    have hc : c ≠ '\n' := hnn c (List.mem_cons_self c rest)
    rw [splitParasGo, if_neg hc, if_neg (by omega)]
    simp only [List.replicate_zero, List.nil_append]
    rw [ih (c :: cur) (fun d hd => hnn d (List.mem_cons_of_mem c hd))]
    simp

theorem splitParas_no_newline (t : List Char) (hnn : ∀ c ∈ t, c ≠ '\n') :
    splitParas t = [t] := by
  simpa using splitParasGo_no_newline t [] hnn

theorem splitLinesGo_no_newline (rest : List Char) : ∀ cur, (∀ c ∈ rest, c ≠ '\n') →
    splitLinesGo cur rest = [cur.reverse ++ rest] := by
  induction rest with
  | nil => intro cur _; simp [splitLinesGo]
  | cons c rest ih =>
    intro cur hnn
    have hc : c ≠ '\n' := hnn c (List.mem_cons_self c rest)
    rw [splitLinesGo, if_neg hc, ih (c :: cur) (fun d hd => hnn d (List.mem_cons_of_mem c hd))]
    simp

theorem splitLines_no_newline (t : List Char) (hnn : ∀ c ∈ t, c ≠ '\n') :
    splitLines t = [t] := by
  simpa using splitLinesGo_no_newline t [] hnn

/-- A newline-free text whose byte size exceeds the limit is returned as a
single chunk consisting of the whole text plus one appended newline: it is the
only "line" of its oversized paragraph, it is never split, and the line loop
appends `"\n"` to it. -/
theorem chunk_single_line_oversized (limit : Nat) (t : List Char)
    (hnn : ∀ c ∈ t, c ≠ '\n') (hbig : byteLen t > limit) :
    chunkWithLimit limit t = [t ++ ['\n']] := by
  have hstate : (splitParas t).foldl (paraStep limit) ([], [], 0)
      = (([] : List (List Char)), t ++ ['\n'], byteLen (t ++ ['\n'])) := by
    rw [splitParas_no_newline t hnn]
    simp only [List.foldl_cons, List.foldl_nil]
    unfold paraStep
    dsimp only
    rw [if_pos hbig, if_neg (by simp), splitLines_no_newline t hnn]
    simp only [List.foldl_cons, List.foldl_nil]
    unfold lineStep
    dsimp only
    rw [if_neg (by simp)]
    simp
  unfold chunkWithLimit
  dsimp only
  rw [hstate]
  simp

/-- C1: the chunker's concatenation law. The concatenation of the returned
chunks equals the concatenation of the paragraph/separator tokens after each
oversized token has been given one extra trailing newline; the token split
itself is lossless; hence concatenation reproduces the input exactly if and
only in general when no token exceeds the byte limit. `chunk_text kb` runs the
limit-based chunker with `limit = kb * 1024`. -/
theorem chunk_text_concat_characterization (limit : Nat) (text : List Char) :
    (chunkWithLimit limit text).flatten = ((splitParas text).map (chunkTok limit)).flatten
      ∧ (splitParas text).flatten = text
      ∧ ((∀ p ∈ splitParas text, byteLen p ≤ limit) → (chunkWithLimit limit text).flatten = text)
      ∧ (∀ kb : Nat, kb ≠ 0 → chunk_text kb text = chunkWithLimit (kb * 1024) text) :=
  ⟨chunkWithLimit_flatten limit text, splitParas_flatten text,
    chunkWithLimit_lossless limit text,
    fun kb hkb => by unfold chunk_text; rw [if_neg hkb]⟩

theorem chunk_text_concat_characterization_witness :
    (∀ p ∈ splitParas ('a' :: 'b' :: '\n' :: '\n' :: 'c' :: 'd' :: []), byteLen p ≤ 8)
      ∧ (chunkWithLimit 8 ('a' :: 'b' :: '\n' :: '\n' :: 'c' :: 'd' :: [])).flatten
          = ('a' :: 'b' :: '\n' :: '\n' :: 'c' :: 'd' :: []) :=
  ⟨by decide,
    (chunk_text_concat_characterization 8 ('a' :: 'b' :: '\n' :: '\n' :: 'c' :: 'd' :: [])).2.2.1
      (by decide)⟩

/-- C1 counterexample: chunking is NOT lossless for every input and every
positive limit. With `chunk_size_kb = 1` (limit 1024 bytes) and an input that
is a single 1025-byte line, the oversized-token line re-split appends an extra
newline, so the concatenation of the chunks differs from the input. -/
theorem chunk_lossless_counterexample :
    (chunk_text 1 (List.replicate 1025 'a')).flatten ≠ List.replicate 1025 'a' := by
  have hnn : ∀ c ∈ List.replicate 1025 'a', c ≠ '\n' := by
    intro c hc
    rw [List.eq_of_mem_replicate hc]
    decide
  have hbl : byteLen (List.replicate 1025 'a') = 1025 := by
    have h1 : Char.utf8Size 'a' = 1 := by decide
    rw [byteLen, List.map_replicate, h1, List.sum_replicate, smul_eq_mul, Nat.mul_one]
  have hch : chunk_text 1 (List.replicate 1025 'a')
      = [List.replicate 1025 'a' ++ ['\n']] := by
    unfold chunk_text
    rw [if_neg (by decide)]
    exact chunk_single_line_oversized 1024 _ hnn (by rw [hbl]; omega)
  rw [hch]
  intro hEq
  have hlen := congrArg List.length hEq
  rw [List.flatten_cons, List.flatten_nil, List.append_nil, List.length_append,
    List.length_replicate, List.length_cons, List.length_nil] at hlen
  omega

/-- C2 (amended): chunking 300 four-byte characters (1200 bytes, no newline)
with `chunk_size_kb = 1` (limit 1024) returns exactly ONE chunk — the whole
300-character text with one appended newline — because lines are the finest
split granularity and the input is a single line; no character is ever split. -/
theorem chunk_multibyte_single_chunk :
    chunk_text 1 (List.replicate 300 (Char.ofNat 0x1D54F))
      = [List.replicate 300 (Char.ofNat 0x1D54F) ++ ['\n']] := by
  have hnn : ∀ c ∈ List.replicate 300 (Char.ofNat 0x1D54F), c ≠ '\n' := by
    intro c hc
    rw [List.eq_of_mem_replicate hc]
    decide
  have hbl : byteLen (List.replicate 300 (Char.ofNat 0x1D54F)) = 1200 := by
    have h4 : Char.utf8Size (Char.ofNat 0x1D54F) = 4 := by decide
    rw [byteLen, List.map_replicate, h4, List.sum_replicate, smul_eq_mul]
  unfold chunk_text
  rw [if_neg (by decide)]
  exact chunk_single_line_oversized 1024 _ hnn (by rw [hbl]; omega)

/-- C2 counterexample: the chunker does NOT return two chunks (256 + 44
characters) for 300 four-byte characters at a 1024-byte limit; it returns a
single chunk (the full line, never split, with a trailing newline added). -/
theorem chunk_multibyte_counterexample :
    (chunk_text 1 (List.replicate 300 (Char.ofNat 0x1D54F))).length ≠ 2 := by
  have hnn : ∀ c ∈ List.replicate 300 (Char.ofNat 0x1D54F), c ≠ '\n' := by
    intro c hc
    rw [List.eq_of_mem_replicate hc]
    decide
  have hbl : byteLen (List.replicate 300 (Char.ofNat 0x1D54F)) = 1200 := by
    have h4 : Char.utf8Size (Char.ofNat 0x1D54F) = 4 := by decide
    rw [byteLen, List.map_replicate, h4, List.sum_replicate, smul_eq_mul]
  have hch : chunk_text 1 (List.replicate 300 (Char.ofNat 0x1D54F))
      = [List.replicate 300 (Char.ofNat 0x1D54F) ++ ['\n']] := by
    unfold chunk_text
    rw [if_neg (by decide)]
    exact chunk_single_line_oversized 1024 _ hnn (by rw [hbl]; omega)
  rw [hch]
  decide

/-! ## Table rendering — `MarkdownConverter._render_table` -/

/-- ASCII whitespace, for Python's default `str.strip()` / `str.split()` and
the regex class `\s`. -/
def isSpaceC (c : Char) : Bool :=
  c = ' ' || c = '\t' || c = '\n' || c = '\r' || c = '\x0b' || c = '\x0c'

/-- Python `str.strip()` (whitespace, modelled over ASCII). -/
def pyStrip (t : List Char) : List Char :=
  ((t.dropWhile isSpaceC).reverse.dropWhile isSpaceC).reverse

/-- Python `.replace("\n", " ")` (character-for-character). -/
def replaceNewlines (t : List Char) : List Char :=
  t.map (fun c => if c = '\n' then ' ' else c)

/-- Python `.replace("|", "\\|")`. -/
def escapePipes (t : List Char) : List Char :=
  t.flatMap (fun c => if c = '|' then ['\\', '|'] else [c])

/-- `clean_cell` from `_render_table`: `None` becomes the empty string; any
other cell has embedded newlines replaced by spaces, literal pipes escaped,
and surrounding whitespace stripped. -/
def clean_cell (val : Option (List Char)) : List Char :=
  match val with
  | none => []
  | some s => pyStrip (escapePipes (replaceNewlines s))

/-- One row of the column-width pass: pointwise
`col_widths[i] = max(col_widths[i], len(clean_cell(cell)))`; cells at indices
`≥ col_count` are ignored (the `i < col_count` guard, vacuous since
`col_count` is the maximal row length). -/
def updW : List Nat → List (Option (List Char)) → List Nat
  | [], _ => []
  | ws, [] => ws
  | w :: ws, c :: cs => Nat.max w (clean_cell c).length :: updW ws cs

/-- Python `cell.ljust(width)` (pad on the right with spaces). -/
def ljust (s : List Char) (w : Nat) : List Char := s ++ List.replicate (w - s.length) ' '

/-- The `while len(cells) < col_count: cells.append("")` padding loop. -/
def padCells (cells : List (List Char)) (n : Nat) : List (List Char) :=
  cells ++ List.replicate (n - cells.length) []

/-- `"| " + " | ".join(cell.ljust(col_widths[i]) ...) + " |"`. -/
def rowLine (ws : List Nat) (cells : List (List Char)) : List Char :=
  ['|', ' '] ++ List.intercalate [' ', '|', ' '] (List.zipWith ljust cells ws) ++ [' ', '|']

/-- The separator row `"| " + " | ".join("-" * w ...) + " |"`. -/
def dashLine (ws : List Nat) : List Char :=
  ['|', ' '] ++ List.intercalate [' ', '|', ' '] (ws.map (fun w => List.replicate w '-')) ++ [' ', '|']

/-- `MarkdownConverter._render_table`. -/
def render_table (table : List (List (Option (List Char)))) : List Char :=
  match table with
  | [] => []
  | row0 :: rest =>
    if row0 = [] then []
    else
      let colCount := ((row0 :: rest).map List.length).foldl Nat.max 0
      let widths := (row0 :: rest).foldl updW (List.replicate colCount 3)
      let header := rowLine widths (padCells (row0.map clean_cell) colCount)
      let dataLines := rest.map (fun r => rowLine widths (padCells (r.map clean_cell) colCount))
      List.intercalate ['\n'] (header :: dashLine widths :: dataLines)

/-- Claim-side renderer for C8, written from the claim's words: clean every
cell (null → empty, newlines → spaces, pipes escaped, trimmed), pad every row
(the header row included) on the right with empty cells to the maximum row
length, give each column width `max(3, longest cleaned cell of the column)`,
and emit the first row as a header line, a separator line of dashes, and one
line per remaining row — no cell or row dropped. -/
def renderTableSpec (table : List (List (Option (List Char)))) : List Char :=
  let colCount := (table.map List.length).foldl Nat.max 0
  let padded := table.map (fun r => padCells (r.map clean_cell) colCount)
  let widths := (List.range colCount).map
    (fun j => Nat.max 3 ((padded.map (fun r => (r.getD j []).length)).foldl Nat.max 0))
  match padded with
  | [] => []
  | h :: rest =>
    List.intercalate ['\n'] (rowLine widths h :: dashLine widths :: rest.map (rowLine widths))

theorem updW_getElem (r : List (Option (List Char))) : ∀ (ws : List Nat) (j : Nat),
    (updW ws r)[j]? = (ws[j]?).map (fun w => Nat.max w (clean_cell (r.getD j none)).length) := by
  induction r with
  | nil =>
    intro ws j
    have h0 : updW ws [] = ws := by cases ws <;> rfl
    have h1 : (([] : List (Option (List Char))).getD j none) = none := by simp
    rw [h0]
    simp only [h1]
    cases hj : ws[j]? <;> simp [clean_cell]
  | cons c cs ih =>
    intro ws j
    cases ws with
    | nil => simp [updW]
    | cons w ws =>
      cases j with
      | zero => simp [updW]
      | succ j => simp [updW, ih ws j]

theorem foldl_updW_getElem (rows : List (List (Option (List Char)))) :
    ∀ (ws : List Nat) (j : Nat),
    (rows.foldl updW ws)[j]?
      = (ws[j]?).map (fun w =>
          rows.foldl (fun acc r => Nat.max acc (clean_cell (r.getD j none)).length) w) := by
  induction rows with
  | nil =>
    intro ws j
    simp only [List.foldl_nil]
    cases hj : ws[j]? <;> simp
  | cons r rows ih =>
    intro ws j
    simp only [List.foldl_cons]
    rw [ih (updW ws r) j, updW_getElem r ws j]
    cases hj : ws[j]? <;> simp

theorem foldl_max_shift (xs : List Nat) : ∀ (a : Nat),
    xs.foldl Nat.max a = Nat.max a (xs.foldl Nat.max 0) := by
  induction xs with
  | nil => intro a; simp
  | cons x xs ih =>
    intro a
    rw [List.foldl_cons, List.foldl_cons, ih (Nat.max a x), ih (Nat.max 0 x)]
    simp [Nat.max_assoc, Nat.zero_max]

theorem padCells_getD (r : List (Option (List Char))) (n j : Nat) :
    (padCells (r.map clean_cell) n).getD j [] = clean_cell (r.getD j none) := by
  unfold padCells
  rw [List.getD_eq_getElem?_getD, List.getD_eq_getElem?_getD]
  by_cases hj : j < r.length
  · have hj' : j < (r.map clean_cell).length := by simpa using hj
    rw [List.getElem?_append_left hj', List.getElem?_map, List.getElem?_eq_getElem hj]
    simp
  · have hge : r.length ≤ j := Nat.le_of_not_lt hj
    have hj' : (r.map clean_cell).length ≤ j := by simpa using hge
    rw [List.getElem?_append_right hj', List.getElem?_eq_none hge, List.getElem?_replicate]
    split <;> simp [clean_cell]

/-- The column widths computed by `_render_table`'s fold equal the columnwise
`max(3, longest cleaned cell of the column over the padded rows)`. -/
theorem render_widths_eq (table : List (List (Option (List Char)))) (colCount : Nat) :
    table.foldl updW (List.replicate colCount 3)
      = (List.range colCount).map
          (fun j => Nat.max 3
            (((table.map (fun r => padCells (r.map clean_cell) colCount)).map
                (fun r => (r.getD j []).length)).foldl Nat.max 0)) := by
  apply List.ext_getElem?
  intro j
  rw [foldl_updW_getElem, List.getElem?_map, List.getElem?_replicate]
  by_cases hj : j < colCount
  · rw [if_pos hj, List.getElem?_range hj]
    simp only [Option.map_some']
    have h1 : table.foldl (fun acc r => Nat.max acc (clean_cell (r.getD j none)).length) 3
        = (table.map (fun r => (clean_cell (r.getD j none)).length)).foldl Nat.max 3 :=
      (List.foldl_map _ _ _ _).symm
    have h2 : (table.map (fun r => padCells (r.map clean_cell) colCount)).map
          (fun r => (r.getD j []).length)
        = table.map (fun r => (clean_cell (r.getD j none)).length) := by
      rw [List.map_map]
      apply List.map_congr_left
      intro r _
      simp only [Function.comp_apply]
      rw [padCells_getD]
    rw [h1, h2, foldl_max_shift]
  · rw [if_neg hj, List.getElem?_eq_none (by simpa using Nat.le_of_not_lt hj)]
    simp

/-- C8: table rendering. An empty table or an empty first row renders to the
empty string. Otherwise `_render_table` renders exactly as the claim states:
every cell is cleaned (null → empty string, embedded newlines → spaces,
literal pipes escaped as backslash-pipe, trimmed), every ragged row — header
included — is padded on the right with empty cells to the maximum row length
(no cell or row after the first is dropped), column widths are
`max(3, longest cleaned cell)`, and the output is the header line, a separator
line of dashes, then one line per remaining row. -/
theorem render_table_correct (table : List (List (Option (List Char)))) :
    (table = [] → render_table table = [])
      ∧ (∀ rest, table = [] :: rest → render_table table = [])
      ∧ (∀ row0 rest, table = row0 :: rest → row0 ≠ [] →
          render_table table = renderTableSpec table) := by
  refine ⟨?_, ?_, ?_⟩
  · intro h; subst h; rfl
  · intro rest h; subst h; simp [render_table]
  · intro row0 rest h hne
    subst h
    unfold render_table renderTableSpec
    dsimp only
    rw [if_neg hne, render_widths_eq]
    simp only [List.map_cons, List.map_map]
    rfl

theorem render_table_correct_witness :
    ([[some ("Name".toList), some ("Age".toList)], [some ("Alice".toList), some ("30".toList)]]
        ≠ ([] : List (List (Option (List Char)))))
      ∧ render_table [[some ("Name".toList), some ("Age".toList)],
            [some ("Alice".toList), some ("30".toList)]]
          = renderTableSpec [[some ("Name".toList), some ("Age".toList)],
            [some ("Alice".toList), some ("30".toList)]] :=
  ⟨by decide,
    (render_table_correct _).2.2 [some ("Name".toList), some ("Age".toList)]
      [[some ("Alice".toList), some ("30".toList)]] rfl (by decide)⟩

/-! ## Data model for `PDFProcessor` -/

/-- A text block (dict) as produced by `process_pdf` and consumed by
`_detect_headers_footers` / `_sort_blocks_by_reading_order`. The optional
`"bbox"` key is `(x0, y0, x1, y1)` as an `Option`; absent `is_header` /
`is_footer` keys are falsy, so they are booleans defaulting to `false`. -/
structure Block where
  text : List Char
  has_indicator : Bool := false
  bbox : Option (ℚ × ℚ × ℚ × ℚ) := none
  is_header : Bool := false
  is_footer : Bool := false
deriving DecidableEq

/-- A page entry of the extraction result dictionary. -/
structure Page where
  page_number : Nat := 0
  text_blocks : List Block := []
  tables : List (List (List (Option (List Char)))) := []
deriving DecidableEq

/-! ## `PDFProcessor._normalize_for_comparison` -/

/-- ASCII digit, the regex class `\d` (modelled over ASCII). -/
def isDigitC (c : Char) : Bool := '0' ≤ c && c ≤ '9'

/-- Python `str.lower()`, modelled over ASCII. -/
def lowerC (c : Char) : Char := c.toLower

/-- `re.sub(r"^\d+\s*$", "", text)`: a string that is one or more digits
followed only by whitespace becomes empty; anything else is unchanged. -/
def stripAllDigitLine (t : List Char) : List Char :=
  if !(t.takeWhile isDigitC).isEmpty && (t.dropWhile isDigitC).all isSpaceC then [] else t

/-- `re.sub(r"^page\s*\d+", "", text, flags=re.IGNORECASE)`: remove a leading
"page" (any case) plus following whitespace run and digit run (at least one
digit required for the pattern to match). -/
def stripPageNum (t : List Char) : List Char :=
  if (t.take 4).map lowerC = ['p', 'a', 'g', 'e'] then
    let rest := (t.drop 4).dropWhile isSpaceC
    if (rest.takeWhile isDigitC).isEmpty then t
    else rest.dropWhile isDigitC
  else t

/-- `re.sub(r"\d+\s*$", "", text)`: delete from the leftmost position at which
the remainder of the string is a digit run followed only by whitespace. -/
def stripTrailingNum : List Char → List Char
  | [] => []
  | c :: rest =>
    if isDigitC c && ((c :: rest).dropWhile isDigitC).all isSpaceC then []
    else c :: stripTrailingNum rest

/-- Worker for Python `text.split()` (split on whitespace, dropping empties). -/
def splitWSGo (cur : List Char) : List Char → List (List Char)
  | [] => if cur.isEmpty then [] else [cur.reverse]
  | c :: rest =>
    if isSpaceC c then
      if cur.isEmpty then splitWSGo [] rest else cur.reverse :: splitWSGo [] rest
    else splitWSGo (c :: cur) rest

/-- Python `text.split()`. -/
def splitWS (t : List Char) : List (List Char) := splitWSGo [] t

/-- `PDFProcessor._normalize_for_comparison`: strip an all-digit line, strip a
"page N" prefix, strip trailing digits, collapse whitespace
(`" ".join(text.split())`), lowercase. -/
def normalize_for_comparison (t : List Char) : List Char :=
  let t1 := stripAllDigitLine t
  let t2 := stripPageNum t1
  let t3 := stripTrailingNum t2
  let t4 := List.intercalate [' '] (splitWS t3)
  t4.map lowerC

/-- The comparison key of a block in `_detect_headers_footers`:
`_normalize_for_comparison(block.get("text", "").strip())`. -/
def normKey (t : List Char) : List Char := normalize_for_comparison (pyStrip t)

/-! ## `PDFProcessor._detect_headers_footers` -/

/-- `page_heights[page_idx] if page_idx < len(page_heights) else 800`. -/
def pageHeightAt (heights : List ℚ) (i : Nat) : ℚ := heights.getD i 800

/-- Whether a block contributes a header-zone candidate occurrence on a page
of height `h` (margin fraction `margin`): it must have a bbox, a normalized
key of length ≥ 3, and its top `bbox[1]` above `header_zone = h * margin`. -/
def headerCand (margin h : ℚ) (b : Block) : Bool :=
  match b.bbox with
  | none => false
  | some bb => decide (3 ≤ (normKey b.text).length) && decide (bb.2.1 < h * margin)

/-- Footer-zone candidate occurrence: bbox bottom `bbox[3]` below
`footer_zone = h * (1 - margin)`. -/
def footerCand (margin h : ℚ) (b : Block) : Bool :=
  match b.bbox with
  | none => false
  | some bb => decide (3 ≤ (normKey b.text).length) && decide (h * (1 - margin) < bb.2.2.2)

/-- The counter `header_candidates[key]` accumulated by the first pass over
the pages starting at page index `i`: every qualifying occurrence increments
the key's counter. -/
def headerCountFrom (margin : ℚ) (heights : List ℚ) (key : List Char) :
    Nat → List Page → Nat
  | _, [] => 0
  | i, pg :: rest =>
    pg.text_blocks.countP
        (fun b => headerCand margin (pageHeightAt heights i) b && decide (normKey b.text = key))
      + headerCountFrom margin heights key (i + 1) rest

/-- `header_candidates[key]` over the whole document. -/
def headerCount (margin : ℚ) (heights : List ℚ) (pages : List Page) (key : List Char) : Nat :=
  headerCountFrom margin heights key 0 pages

/-- The counter `footer_candidates[key]`. -/
def footerCountFrom (margin : ℚ) (heights : List ℚ) (key : List Char) :
    Nat → List Page → Nat
  | _, [] => 0
  | i, pg :: rest =>
    pg.text_blocks.countP
        (fun b => footerCand margin (pageHeightAt heights i) b && decide (normKey b.text = key))
      + footerCountFrom margin heights key (i + 1) rest

def footerCount (margin : ℚ) (heights : List ℚ) (pages : List Page) (key : List Char) : Nat :=
  footerCountFrom margin heights key 0 pages

/-- `key in repeating_headers`: counter ≥ `threshold = len(pages) * 0.5`. -/
def isRepeatingHeader (margin : ℚ) (heights : List ℚ) (pages : List Page)
    (key : List Char) : Bool :=
  decide ((pages.length : ℚ) * (1 / 2) ≤ (headerCount margin heights pages key : ℚ))

def isRepeatingFooter (margin : ℚ) (heights : List ℚ) (pages : List Page)
    (key : List Char) : Bool :=
  decide ((pages.length : ℚ) * (1 / 2) ≤ (footerCount margin heights pages key : ℚ))

/-- The second pass of `_detect_headers_footers` on a single block of page
`i`: a block with no bbox is skipped; otherwise `is_header` / `is_footer` are
set to `True` when the block sits in the margin zone and its normalized key is
repeating. -/
def markBlock (margin : ℚ) (heights : List ℚ) (pages : List Page) (i : Nat) (b : Block) :
    Block :=
  match b.bbox with
  | none => b
  | some bb =>
    let h := pageHeightAt heights i
    let b1 :=
      if decide (bb.2.1 < h * margin) && isRepeatingHeader margin heights pages (normKey b.text)
      then { b with is_header := true } else b
    if decide (h * (1 - margin) < bb.2.2.2) && isRepeatingFooter margin heights pages (normKey b.text)
    then { b1 with is_footer := true } else b1

/-- The second pass over the pages starting at page index `i`. -/
def markPagesFrom (margin : ℚ) (heights : List ℚ) (pages : List Page) :
    Nat → List Page → List Page
  | _, [] => []
  | i, pg :: rest =>
    { pg with text_blocks := pg.text_blocks.map (markBlock margin heights pages i) }
      :: markPagesFrom margin heights pages (i + 1) rest

/-- `PDFProcessor._detect_headers_footers`, acting on the page list of the
result dict together with the `page_heights` list: a no-op for fewer than 3
pages, otherwise flags repeating margin-zone blocks in place. -/
def detect_headers_footers (margin : ℚ) (pages : List Page) (heights : List ℚ) : List Page :=
  if pages.length < 3 then pages
  else markPagesFrom margin heights pages 0 pages

/-- C6: for every document with fewer than 3 pages the header/footer detector
is a no-op — the page list (hence every fragment's `is_header` / `is_footer`
flag) is returned completely unchanged, even when all pages share identical
margin-zone text. -/
theorem detect_headers_footers_needs_three_pages (margin : ℚ) (pages : List Page)
    (heights : List ℚ) (h : pages.length < 3) :
    detect_headers_footers margin pages heights = pages := by
  unfold detect_headers_footers
  rw [if_pos h]

theorem detect_headers_footers_needs_three_pages_witness :
    ([Page.mk 1 [Block.mk ("Header".toList) false (some (50, 20, 200, 50)) false false] [],
        Page.mk 2 [Block.mk ("Header".toList) false (some (50, 20, 200, 50)) false false] []].length < 3)
      ∧ detect_headers_footers (1 / 10)
          [Page.mk 1 [Block.mk ("Header".toList) false (some (50, 20, 200, 50)) false false] [],
            Page.mk 2 [Block.mk ("Header".toList) false (some (50, 20, 200, 50)) false false] []]
          [800, 800]
        = [Page.mk 1 [Block.mk ("Header".toList) false (some (50, 20, 200, 50)) false false] [],
            Page.mk 2 [Block.mk ("Header".toList) false (some (50, 20, 200, 50)) false false] []] :=
  ⟨by decide, detect_headers_footers_needs_three_pages _ _ _ (by decide)⟩

theorem markPagesFrom_getElem (margin : ℚ) (heights : List ℚ) (pages : List Page)
    (ps : List Page) : ∀ (i j : Nat),
    (markPagesFrom margin heights pages i ps)[j]?
      = (ps[j]?).map (fun pg =>
          { pg with text_blocks := pg.text_blocks.map (markBlock margin heights pages (i + j)) }) := by
  induction ps with
  | nil => intro i j; simp [markPagesFrom]
  | cons pg rest ih =>
    intro i j
    cases j with
    | zero => simp [markPagesFrom]
    | succ j =>
      rw [markPagesFrom]
      simp only [List.getElem?_cons_succ, ih (i + 1) j]
      have : i + 1 + j = i + (j + 1) := by omega
      rw [this]

/-- The number of pages (counting from page index `i`) that contain at least
one header-zone candidate occurrence of `key`. -/
def headerPagesFrom (margin : ℚ) (heights : List ℚ) (key : List Char) :
    Nat → List Page → Nat
  | _, [] => 0
  | i, pg :: rest =>
    (if pg.text_blocks.any
        (fun b => headerCand margin (pageHeightAt heights i) b && decide (normKey b.text = key))
      then 1 else 0) + headerPagesFrom margin heights key (i + 1) rest

def headerPages (margin : ℚ) (heights : List ℚ) (pages : List Page) (key : List Char) : Nat :=
  headerPagesFrom margin heights key 0 pages

/-- Symmetric page count for the footer zone. -/
def footerPagesFrom (margin : ℚ) (heights : List ℚ) (key : List Char) :
    Nat → List Page → Nat
  | _, [] => 0
  | i, pg :: rest =>
    (if pg.text_blocks.any
        (fun b => footerCand margin (pageHeightAt heights i) b && decide (normKey b.text = key))
      then 1 else 0) + footerPagesFrom margin heights key (i + 1) rest

def footerPages (margin : ℚ) (heights : List ℚ) (pages : List Page) (key : List Char) : Nat :=
  footerPagesFrom margin heights key 0 pages

/-- Each page with an occurrence contributes at least one to the counter. -/
theorem headerPagesFrom_le (margin : ℚ) (heights : List ℚ) (key : List Char)
    (ps : List Page) : ∀ (i : Nat),
    headerPagesFrom margin heights key i ps ≤ headerCountFrom margin heights key i ps := by
  induction ps with
  | nil => intro i; exact Nat.le_refl 0
  | cons pg rest ih =>
    intro i
    rw [headerPagesFrom, headerCountFrom]
    apply Nat.add_le_add _ (ih (i + 1))
    split
    · next hany =>
      rw [List.any_eq_true] at hany
      obtain ⟨b, hbmem, hpb⟩ := hany
      exact List.one_le_countP_iff.mpr ⟨b, hbmem, hpb⟩
    · exact Nat.zero_le _

theorem footerPagesFrom_le (margin : ℚ) (heights : List ℚ) (key : List Char)
    (ps : List Page) : ∀ (i : Nat),
    footerPagesFrom margin heights key i ps ≤ footerCountFrom margin heights key i ps := by
  induction ps with
  | nil => intro i; exact Nat.le_refl 0
  | cons pg rest ih =>
    intro i
    rw [footerPagesFrom, footerCountFrom]
    apply Nat.add_le_add _ (ih (i + 1))
    split
    · next hany =>
      rw [List.any_eq_true] at hany
      obtain ⟨b, hbmem, hpb⟩ := hany
      exact List.one_le_countP_iff.mpr ⟨b, hbmem, hpb⟩
    · exact Nat.zero_le _

theorem markBlock_is_header (margin : ℚ) (heights : List ℚ) (pages : List Page)
    (i : Nat) (b : Block) (bb : ℚ × ℚ × ℚ × ℚ) (hbb : b.bbox = some bb) :
    (markBlock margin heights pages i b).is_header
      = ((decide (bb.2.1 < pageHeightAt heights i * margin)
          && isRepeatingHeader margin heights pages (normKey b.text)) || b.is_header) := by
  unfold markBlock
  rw [hbb]
  dsimp only
  have hproj : ∀ (b1 : Block), ({ b1 with is_footer := true } : Block).is_header = b1.is_header :=
    fun b1 => rfl
  have hmain : (if (decide (bb.2.1 < pageHeightAt heights i * margin)
        && isRepeatingHeader margin heights pages (normKey b.text)) = true
      then Block.mk b.text b.has_indicator (some bb) true b.is_footer else b).is_header
      = ((decide (bb.2.1 < pageHeightAt heights i * margin)
          && isRepeatingHeader margin heights pages (normKey b.text)) || b.is_header) := by
    split
    · next hcond => rw [hcond]; rfl
    · next hcond =>
      rw [Bool.not_eq_true] at hcond
      rw [hcond, Bool.false_or]
  split
  · rw [hproj]; exact hmain
  · exact hmain

theorem markBlock_is_footer (margin : ℚ) (heights : List ℚ) (pages : List Page)
    (i : Nat) (b : Block) (bb : ℚ × ℚ × ℚ × ℚ) (hbb : b.bbox = some bb) :
    (markBlock margin heights pages i b).is_footer
      = ((decide (pageHeightAt heights i * (1 - margin) < bb.2.2.2)
          && isRepeatingFooter margin heights pages (normKey b.text)) || b.is_footer) := by
  unfold markBlock
  rw [hbb]
  dsimp only
  have hb1 : (if (decide (bb.2.1 < pageHeightAt heights i * margin)
        && isRepeatingHeader margin heights pages (normKey b.text)) = true
      then Block.mk b.text b.has_indicator (some bb) true b.is_footer else b).is_footer
      = b.is_footer := by
    split <;> rfl
  split
  · next hcond => rw [hcond, Bool.true_or]
  · next hcond =>
    rw [Bool.not_eq_true] at hcond
    rw [hcond, Bool.false_or]
    exact hb1

/-- C5: for a document with at least 3 pages, the detector flags exactly the
margin-zone fragments whose normalized key accumulated a candidate count
`≥ 0.5 * page_count`: a fragment (initially unflagged) ends up with
`is_header = true` iff it has a bbox lying in the header zone of its page and
its key's header counter reaches the majority threshold (symmetrically for
footers); and a key with header/footer-zone occurrences on at least half of
the pages reaches the threshold, so such a fragment is flagged on every page
where it appears in the zone. A key counted fewer than `0.5 * page_count`
times is never flagged (the "only if" direction). -/
theorem detect_flags_characterization (margin : ℚ) (heights : List ℚ) (pages : List Page)
    (i j : Nat) (pg : Page) (b : Block)
    (h3 : 3 ≤ pages.length)
    (hpg : pages[i]? = some pg) (hb : pg.text_blocks[j]? = some b)
    (hH : b.is_header = false) (hF : b.is_footer = false) :
    ∃ pg' b',
      (detect_headers_footers margin pages heights)[i]? = some pg'
        ∧ pg'.text_blocks[j]? = some b'
        ∧ (b'.is_header = true ↔
            ∃ bb, b.bbox = some bb ∧ bb.2.1 < pageHeightAt heights i * margin
              ∧ (pages.length : ℚ) * (1 / 2)
                  ≤ (headerCount margin heights pages (normKey b.text) : ℚ))
        ∧ (b'.is_footer = true ↔
            ∃ bb, b.bbox = some bb ∧ pageHeightAt heights i * (1 - margin) < bb.2.2.2
              ∧ (pages.length : ℚ) * (1 / 2)
                  ≤ (footerCount margin heights pages (normKey b.text) : ℚ))
        ∧ ((pages.length : ℚ) * (1 / 2)
              ≤ (headerPages margin heights pages (normKey b.text) : ℚ) →
            ∀ bb, b.bbox = some bb → bb.2.1 < pageHeightAt heights i * margin →
              b'.is_header = true)
        ∧ ((pages.length : ℚ) * (1 / 2)
              ≤ (footerPages margin heights pages (normKey b.text) : ℚ) →
            ∀ bb, b.bbox = some bb → pageHeightAt heights i * (1 - margin) < bb.2.2.2 →
              b'.is_footer = true) := by
  have hdet : (detect_headers_footers margin pages heights)[i]?
      = some { pg with text_blocks := pg.text_blocks.map (markBlock margin heights pages i) } := by
    unfold detect_headers_footers
    rw [if_neg (by omega), markPagesFrom_getElem, hpg]
    simp
  refine ⟨_, markBlock margin heights pages i b, hdet, ?_, ?_, ?_, ?_, ?_⟩
  · simp [List.getElem?_map, hb]
  · cases hbb : b.bbox with
    | none =>
      have hmb : markBlock margin heights pages i b = b := by
        unfold markBlock; rw [hbb]
      rw [hmb, hH]
      constructor
      · intro hfalse; exact absurd hfalse (by simp)
      · rintro ⟨bb, hbbeq, -⟩
        exact absurd hbbeq (by simp)
    | some bb =>
      rw [markBlock_is_header margin heights pages i b bb hbb, hH]
      unfold isRepeatingHeader
      constructor
      · intro htrue
        simp only [Bool.or_false, Bool.and_eq_true, decide_eq_true_eq] at htrue
        exact ⟨bb, rfl, htrue.1, htrue.2⟩
      · rintro ⟨bb', hbbeq, hzone, hcount⟩
        injection hbbeq with hbbeq
        subst hbbeq
        simp only [Bool.or_false, Bool.and_eq_true, decide_eq_true_eq]
        exact ⟨hzone, hcount⟩
  · cases hbb : b.bbox with
    | none =>
      have hmb : markBlock margin heights pages i b = b := by
        unfold markBlock; rw [hbb]
      rw [hmb, hF]
      constructor
      · intro hfalse; exact absurd hfalse (by simp)
      · rintro ⟨bb, hbbeq, -⟩
        exact absurd hbbeq (by simp)
    | some bb =>
      rw [markBlock_is_footer margin heights pages i b bb hbb, hF]
      unfold isRepeatingFooter
      constructor
      · intro htrue
        simp only [Bool.or_false, Bool.and_eq_true, decide_eq_true_eq] at htrue
        exact ⟨bb, rfl, htrue.1, htrue.2⟩
      · rintro ⟨bb', hbbeq, hzone, hcount⟩
        injection hbbeq with hbbeq
        subst hbbeq
        simp only [Bool.or_false, Bool.and_eq_true, decide_eq_true_eq]
        exact ⟨hzone, hcount⟩
  · intro hpgs bb hbb hzone
    have hcnt : (pages.length : ℚ) * (1 / 2)
        ≤ (headerCount margin heights pages (normKey b.text) : ℚ) := by
      refine le_trans hpgs ?_
      exact_mod_cast headerPagesFrom_le margin heights (normKey b.text) pages 0
    rw [markBlock_is_header margin heights pages i b bb hbb, hH]
    unfold isRepeatingHeader
    simp only [Bool.or_false, Bool.and_eq_true, decide_eq_true_eq]
    exact ⟨hzone, hcnt⟩
  · intro hpgs bb hbb hzone
    have hcnt : (pages.length : ℚ) * (1 / 2)
        ≤ (footerCount margin heights pages (normKey b.text) : ℚ) := by
      refine le_trans hpgs ?_
      exact_mod_cast footerPagesFrom_le margin heights (normKey b.text) pages 0
    rw [markBlock_is_footer margin heights pages i b bb hbb, hF]
    unfold isRepeatingFooter
    simp only [Bool.or_false, Bool.and_eq_true, decide_eq_true_eq]
    exact ⟨hzone, hcnt⟩

/-- A concrete running-header block (as in the repository's own test data). -/
def c5Block : Block := Block.mk ("Document Title".toList) false (some (50, 20, 200, 50)) false false

/-- A concrete body block. -/
def c5Content (s : List Char) : Block := Block.mk s false (some (50, 200, 400, 400)) false false

/-- A concrete three-page document whose every page repeats `c5Block` in the
header zone. -/
def c5Pages : List Page :=
  [Page.mk 1 [c5Block, c5Content ("Content 1".toList)] [],
   Page.mk 2 [c5Block, c5Content ("Content 2".toList)] [],
   Page.mk 3 [c5Block, c5Content ("Content 3".toList)] []]

theorem detect_flags_characterization_witness :
    ∃ pg' b',
      (detect_headers_footers (1 / 10) c5Pages [800, 800, 800])[0]? = some pg'
        ∧ pg'.text_blocks[0]? = some b'
        ∧ (b'.is_header = true ↔
            ∃ bb, c5Block.bbox = some bb ∧ bb.2.1 < pageHeightAt [800, 800, 800] 0 * (1 / 10)
              ∧ (c5Pages.length : ℚ) * (1 / 2)
                  ≤ (headerCount (1 / 10) [800, 800, 800] c5Pages (normKey c5Block.text) : ℚ))
        ∧ (b'.is_footer = true ↔
            ∃ bb, c5Block.bbox = some bb
              ∧ pageHeightAt [800, 800, 800] 0 * (1 - 1 / 10) < bb.2.2.2
              ∧ (c5Pages.length : ℚ) * (1 / 2)
                  ≤ (footerCount (1 / 10) [800, 800, 800] c5Pages (normKey c5Block.text) : ℚ))
        ∧ ((c5Pages.length : ℚ) * (1 / 2)
              ≤ (headerPages (1 / 10) [800, 800, 800] c5Pages (normKey c5Block.text) : ℚ) →
            ∀ bb, c5Block.bbox = some bb → bb.2.1 < pageHeightAt [800, 800, 800] 0 * (1 / 10) →
              b'.is_header = true)
        ∧ ((c5Pages.length : ℚ) * (1 / 2)
              ≤ (footerPages (1 / 10) [800, 800, 800] c5Pages (normKey c5Block.text) : ℚ) →
            ∀ bb, c5Block.bbox = some bb →
              pageHeightAt [800, 800, 800] 0 * (1 - 1 / 10) < bb.2.2.2 →
              b'.is_footer = true) :=
  detect_flags_characterization (1 / 10) [800, 800, 800] c5Pages 0 0
    (Page.mk 1 [c5Block, c5Content ("Content 1".toList)] []) c5Block
    (by decide) (by decide) (by decide) rfl rfl

/-- The detector's per-block frame relation: text, bbox and `has_indicator`
are unchanged, and flags are only ever set (never cleared). -/
def blockMatch (b c : Block) : Prop :=
  c.text = b.text ∧ c.has_indicator = b.has_indicator ∧ c.bbox = b.bbox
    ∧ (b.is_header = true → c.is_header = true) ∧ (b.is_footer = true → c.is_footer = true)

/-- The detector's per-page frame relation: page number, tables, and the
number and order of blocks are unchanged; each block matches positionally. -/
def pageMatch (p q : Page) : Prop :=
  q.page_number = p.page_number ∧ q.tables = p.tables
    ∧ List.Forall₂ blockMatch p.text_blocks q.text_blocks

theorem markBlock_blockMatch (m : ℚ) (hs : List ℚ) (ps : List Page) (i : Nat) (b : Block) :
    blockMatch b (markBlock m hs ps i b) := by
  unfold blockMatch markBlock
  cases hbb : b.bbox with
  | none => exact ⟨rfl, rfl, hbb.symm ▸ rfl, fun h => h, fun h => h⟩
  | some bb =>
    dsimp only
    refine ⟨?_, ?_, ?_, ?_, ?_⟩
    · split <;> split <;> rfl
    · split <;> split <;> rfl
    · split <;> split <;> simp [hbb]
    · intro hh; split <;> split <;> simp [hh]
    · intro hf; split <;> split <;> simp [hf]

theorem markBlock_text (m : ℚ) (hs : List ℚ) (ps : List Page) (i : Nat) (b : Block) :
    (markBlock m hs ps i b).text = b.text :=
  (markBlock_blockMatch m hs ps i b).1

theorem markBlock_bbox (m : ℚ) (hs : List ℚ) (ps : List Page) (i : Nat) (b : Block) :
    (markBlock m hs ps i b).bbox = b.bbox :=
  (markBlock_blockMatch m hs ps i b).2.2.1

theorem forall₂_markBlocks (m : ℚ) (hs : List ℚ) (ps : List Page) (i : Nat)
    (blocks : List Block) :
    List.Forall₂ blockMatch blocks (blocks.map (markBlock m hs ps i)) := by
  induction blocks with
  | nil => exact List.Forall₂.nil
  | cons b bs ih => exact List.Forall₂.cons (markBlock_blockMatch m hs ps i b) ih

theorem forall₂_markPagesFrom (m : ℚ) (hs : List ℚ) (ps : List Page) (qs : List Page) :
    ∀ (i : Nat), List.Forall₂ pageMatch qs (markPagesFrom m hs ps i qs) := by
  induction qs with
  | nil => intro i; exact List.Forall₂.nil
  | cons pg rest ih =>
    intro i
    exact List.Forall₂.cons ⟨rfl, rfl, forall₂_markBlocks m hs ps i pg.text_blocks⟩ (ih (i + 1))

theorem markPagesFrom_length (m : ℚ) (hs : List ℚ) (ps : List Page) (qs : List Page) :
    ∀ (i : Nat), (markPagesFrom m hs ps i qs).length = qs.length := by
  induction qs with
  | nil => intro i; rfl
  | cons pg rest ih =>
    intro i
    rw [markPagesFrom, List.length_cons, List.length_cons, ih (i + 1)]

theorem headerCand_congr (m h : ℚ) (b c : Block) (h1 : c.bbox = b.bbox) (h2 : c.text = b.text) :
    headerCand m h c = headerCand m h b := by
  unfold headerCand
  rw [h1, h2]

theorem footerCand_congr (m h : ℚ) (b c : Block) (h1 : c.bbox = b.bbox) (h2 : c.text = b.text) :
    footerCand m h c = footerCand m h b := by
  unfold footerCand
  rw [h1, h2]

theorem headerCountFrom_marked (m : ℚ) (hs : List ℚ) (ps : List Page) (key : List Char)
    (qs : List Page) : ∀ (i : Nat),
    headerCountFrom m hs key i (markPagesFrom m hs ps i qs) = headerCountFrom m hs key i qs := by
  induction qs with
  | nil => intro i; rfl
  | cons pg rest ih =>
    intro i
    rw [markPagesFrom, headerCountFrom, headerCountFrom, ih (i + 1)]
    congr 1
    rw [List.countP_map]
    apply List.countP_congr
    intro b _
    simp only [Function.comp_apply]
    rw [headerCand_congr m (pageHeightAt hs i) b (markBlock m hs ps i b)
        (markBlock_bbox m hs ps i b) (markBlock_text m hs ps i b),
      markBlock_text m hs ps i b]

theorem footerCountFrom_marked (m : ℚ) (hs : List ℚ) (ps : List Page) (key : List Char)
    (qs : List Page) : ∀ (i : Nat),
    footerCountFrom m hs key i (markPagesFrom m hs ps i qs) = footerCountFrom m hs key i qs := by
  induction qs with
  | nil => intro i; rfl
  | cons pg rest ih =>
    intro i
    rw [markPagesFrom, footerCountFrom, footerCountFrom, ih (i + 1)]
    congr 1
    rw [List.countP_map]
    apply List.countP_congr
    intro b _
    simp only [Function.comp_apply]
    rw [footerCand_congr m (pageHeightAt hs i) b (markBlock m hs ps i b)
        (markBlock_bbox m hs ps i b) (markBlock_text m hs ps i b),
      markBlock_text m hs ps i b]

theorem isRepeatingHeader_marked (m : ℚ) (hs : List ℚ) (pages : List Page) (key : List Char) :
    isRepeatingHeader m hs (markPagesFrom m hs pages 0 pages) key
      = isRepeatingHeader m hs pages key := by
  unfold isRepeatingHeader headerCount
  rw [headerCountFrom_marked, markPagesFrom_length]

theorem isRepeatingFooter_marked (m : ℚ) (hs : List ℚ) (pages : List Page) (key : List Char) :
    isRepeatingFooter m hs (markPagesFrom m hs pages 0 pages) key
      = isRepeatingFooter m hs pages key := by
  unfold isRepeatingFooter footerCount
  rw [footerCountFrom_marked, markPagesFrom_length]

theorem markBlock_idem (m : ℚ) (hs : List ℚ) (pages out : List Page) (i : Nat) (b : Block)
    (hrepH : ∀ key, isRepeatingHeader m hs out key = isRepeatingHeader m hs pages key)
    (hrepF : ∀ key, isRepeatingFooter m hs out key = isRepeatingFooter m hs pages key) :
    markBlock m hs out i (markBlock m hs pages i b) = markBlock m hs pages i b := by
  cases hbb : b.bbox with
  | none =>
    have h1 : markBlock m hs pages i b = b := by unfold markBlock; rw [hbb]
    rw [h1]
    unfold markBlock
    rw [hbb]
  | some bb =>
    cases hch : (decide (bb.2.1 < pageHeightAt hs i * m)
        && isRepeatingHeader m hs pages (normKey b.text)) <;>
      cases hcf : (decide (pageHeightAt hs i * (1 - m) < bb.2.2.2)
          && isRepeatingFooter m hs pages (normKey b.text)) <;>
      simp [markBlock, hbb, hrepH, hrepF, hch, hcf]

theorem markPagesFrom_idem (m : ℚ) (hs : List ℚ) (pages out : List Page)
    (hrepH : ∀ key, isRepeatingHeader m hs out key = isRepeatingHeader m hs pages key)
    (hrepF : ∀ key, isRepeatingFooter m hs out key = isRepeatingFooter m hs pages key)
    (qs : List Page) : ∀ (i : Nat),
    markPagesFrom m hs out i (markPagesFrom m hs pages i qs)
      = markPagesFrom m hs pages i qs := by
  induction qs with
  | nil => intro i; rfl
  | cons pg rest ih =>
    intro i
    rw [markPagesFrom]
    conv_lhs => rw [markPagesFrom]
    rw [ih (i + 1)]
    congr 1
    simp only [List.map_map]
    congr 1
    apply List.map_congr_left
    intro b _
    exact markBlock_idem m hs pages out i b hrepH hrepF

/-- C10: the header/footer detector only sets `is_header` / `is_footer` flags
to `true`. For every document: pages and fragments keep their count and order;
every fragment's text, bounding box and `has_indicator` are unchanged; a flag
that was `true` before is never cleared; and re-running the detector on its
own output yields exactly the same document. -/
theorem detect_headers_footers_frame_idempotent (margin : ℚ) (pages : List Page)
    (heights : List ℚ) :
    List.Forall₂ pageMatch pages (detect_headers_footers margin pages heights)
      ∧ detect_headers_footers margin (detect_headers_footers margin pages heights) heights
          = detect_headers_footers margin pages heights := by
  constructor
  · unfold detect_headers_footers
    split
    · exact List.forall₂_same.mpr fun p _ => ⟨rfl, rfl,
        List.forall₂_same.mpr fun b _ => ⟨rfl, rfl, rfl, fun h => h, fun h => h⟩⟩
    · exact forall₂_markPagesFrom margin heights pages pages 0
  · unfold detect_headers_footers
    by_cases h3 : pages.length < 3
    · rw [if_pos h3, if_pos h3]
    · rw [if_neg h3, if_neg (by rw [markPagesFrom_length]; exact h3)]
      exact markPagesFrom_idem margin heights pages (markPagesFrom margin heights pages 0 pages)
        (isRepeatingHeader_marked margin heights pages)
        (isRepeatingFooter_marked margin heights pages) pages 0

/-! ## Reading order — `PDFProcessor._sort_blocks_by_reading_order` -/

/-- The bbox with a default for totality; the resolver core only ever uses it
on blocks that have a bbox (the wrapper errors otherwise). -/
def bboxD (b : Block) : ℚ × ℚ × ℚ × ℚ := b.bbox.getD (0, 0, 0, 0)

/-- `x_pos = (b["bbox"][0] + b["bbox"][2]) / 2`, the horizontal midpoint. -/
def xmid (b : Block) : ℚ := ((bboxD b).1 + (bboxD b).2.2.1) / 2

/-- `b["bbox"][1]`, the top coordinate used by the in-column sort. -/
def ytop (b : Block) : ℚ := (bboxD b).2.1

/-- The non-strict order by a rational key; Python's stable sorts
(`sorted` / `list.sort` with a key) are stable sorts by exactly this order,
and are modelled by the stable `List.insertionSort`. -/
def keyLE {α : Type} (k : α → ℚ) (a b : α) : Prop := k a ≤ k b

instance {α : Type} (k : α → ℚ) : DecidableRel (keyLE k) :=
  fun a b => inferInstanceAs (Decidable (k a ≤ k b))

/-- `sorted(zip(x_positions, blocks), key=lambda x: x[0])`. -/
def midsort (l : List Block) : List Block := l.insertionSort (keyLE xmid)

/-- `col.sort(key=lambda b: b["bbox"][1])`. -/
def ysort (l : List Block) : List Block := l.insertionSort (keyLE ytop)

/-- One iteration of the column-clustering loop of
`_sort_blocks_by_reading_order`; the state is
`(columns, current_col, current_x)`. A fragment joins the current column when
`current_x is None or abs(x_pos - current_x) < threshold`, updating
`current_x` to the pairwise average `(current_x + x_pos) / 2`; otherwise the
current column is flushed (when non-empty) and a new one starts. -/
def clusterStep (th : ℚ) (st : List (List Block) × List Block × Option ℚ) (b : Block) :
    List (List Block) × List Block × Option ℚ :=
  match st.2.2 with
  | none => (st.1, st.2.1 ++ [b], some (xmid b))
  | some cx =>
    if |xmid b - cx| < th then (st.1, st.2.1 ++ [b], some ((cx + xmid b) / 2))
    else ((if st.2.1 = [] then st.1 else st.1 ++ [st.2.1]), [b], some (xmid b))

/-- The clustering loop over all (already midpoint-sorted) blocks. -/
def clusterFold (th : ℚ) (bs : List Block) : List (List Block) × List Block × Option ℚ :=
  bs.foldl (clusterStep th) ([], [], none)

/-- The final `columns` list (after `if current_col: columns.append(...)`). -/
def cluster (th : ℚ) (bs : List Block) : List (List Block) :=
  let st := clusterFold th bs
  if st.2.1 = [] then st.1 else st.1 ++ [st.2.1]

/-- The happy path of `_sort_blocks_by_reading_order` (all blocks carry a
bbox): sort by midpoint, cluster into columns with `threshold = page_width *
column_threshold`, sort each column top-to-bottom, concatenate columns. -/
def resolveCore (column_threshold page_width : ℚ) (blocks : List Block) : List Block :=
  ((cluster (page_width * column_threshold) (midsort blocks)).map ysort).flatten

/-- `PDFProcessor._sort_blocks_by_reading_order(blocks, page_width)` with
`self.column_threshold = column_threshold`. An empty list returns
immediately; otherwise the comprehension
`[(b["bbox"][0] + b["bbox"][2]) / 2 for b in blocks]` raises `KeyError`
(modelled as `Except.error`) as soon as any block lacks a bbox. -/
def sort_blocks_by_reading_order (column_threshold : ℚ) (blocks : List Block)
    (page_width : ℚ) : Except Unit (List Block) :=
  if blocks = [] then .ok blocks
  else if blocks.all (fun b => b.bbox.isSome) then
    .ok (resolveCore column_threshold page_width blocks)
  else .error ()

/-- Three blocks in one cluster: midpoints 0, 0, 4. -/
def c3a : Block := Block.mk ("aaa".toList) false (some (0, 0, 0, 0)) false false

def c3b : Block := Block.mk ("bbb".toList) false (some (0, 0, 0, 0)) false false

def c3c : Block := Block.mk ("ccc".toList) false (some (4, 0, 4, 0)) false false

/-- C3 counterexample: the cluster reference is NOT the running arithmetic
mean of all members. With midpoints 0, 0, 4 all joining one cluster
(threshold 100), after the third member the reference is
`((0 + 0)/2 + 4)/2 = 2`, while the mean of the three midpoints is `4/3`. -/
theorem cluster_running_mean_counterexample :
    (clusterFold 100 [c3a, c3b, c3c]).2.1 = [c3a, c3b, c3c]
      ∧ (clusterFold 100 [c3a, c3b, c3c]).2.2 = some 2
      ∧ (xmid c3a + xmid c3b + xmid c3c) / 3 ≠ (2 : ℚ) := by
  have ha : xmid c3a = 0 := by norm_num [xmid, c3a, bboxD]
  have hb : xmid c3b = 0 := by norm_num [xmid, c3b, bboxD]
  have hc : xmid c3c = 4 := by norm_num [xmid, c3c, bboxD]
  have hfold : clusterFold 100 [c3a, c3b, c3c] = ([], [c3a, c3b, c3c], some 2) := by
    unfold clusterFold
    simp only [List.foldl_cons, List.foldl_nil]
    unfold clusterStep
    norm_num [ha, hb, hc]
  refine ⟨by rw [hfold], by rw [hfold], by rw [ha, hb, hc]; norm_num⟩

/-- C3 (amended): when a fragment joins the current cluster, the reference
midpoint is updated by PAIRWISE averaging — the new reference is
`(current_x + x_pos) / 2`, the average of the previous reference and the new
member's midpoint (and the first member sets the reference to its own
midpoint). This equals the arithmetic mean of all members only for the first
two members (`k ≤ 2`); from the third member on it is an exponentially
weighted average, not the running mean. -/
theorem cluster_reference_pairwise_average (th : ℚ)
    (st : List (List Block) × List Block × Option ℚ) (b b1 b2 : Block) :
    (st.2.2 = none → (clusterStep th st b).2.2 = some (xmid b))
      ∧ (∀ cx, st.2.2 = some cx → |xmid b - cx| < th →
          (clusterStep th st b).2.2 = some ((cx + xmid b) / 2))
      ∧ (clusterFold th [b1]).2.2 = some (xmid b1)
      ∧ (|xmid b2 - xmid b1| < th →
          (clusterFold th [b1, b2]).2.2 = some ((xmid b1 + xmid b2) / 2)) := by
  refine ⟨?_, ?_, ?_, ?_⟩
  · intro hnone
    unfold clusterStep
    rw [hnone]
  · intro cx hsome hlt
    unfold clusterStep
    rw [hsome]
    dsimp only
    rw [if_pos hlt]
  · rfl
  · intro hlt
    unfold clusterFold
    simp only [List.foldl_cons, List.foldl_nil]
    unfold clusterStep
    dsimp only
    rw [if_pos hlt]

theorem cluster_reference_pairwise_average_witness :
    (clusterStep 100 ([], [], none) c3a).2.2 = some (xmid c3a)
      ∧ (clusterFold 100 [c3a, c3c]).2.2 = some ((xmid c3a + xmid c3c) / 2) :=
  ⟨(cluster_reference_pairwise_average 100 ([], [], none) c3a c3a c3c).1 rfl,
    (cluster_reference_pairwise_average 100 ([], [], none) c3a c3a c3c).2.2.2
      (by norm_num [xmid, c3a, c3c, bboxD])⟩

/-- A block with no bounding box. -/
def c4NoBbox : Block := Block.mk ("orphan".toList) false none false false

/-- C4 counterexample: the reading-order resolver does NOT exclude a block
without a bbox — it fails (KeyError on `b["bbox"]`) instead of processing the
page. -/
theorem sort_blocks_missing_bbox_counterexample :
    sort_blocks_by_reading_order (3 / 10) [c4NoBbox] 500 = .error () := by
  rfl

/-- C4 (amended): a fragment with no bounding box is excluded (and harmless)
in the header/footer detector — it is never a margin-zone candidate and is
passed through unchanged — but the reading-order resolver does not exclude
it: any non-empty block list containing a bbox-less block makes
`_sort_blocks_by_reading_order` raise (the pipeline itself never produces
such blocks, since `process_pdf` always constructs a bbox). -/
theorem missing_bbox_handling (ct w margin : ℚ) (blocks : List Block)
    (heights : List ℚ) (pages : List Page) (i : Nat) (b : Block) :
    (blocks ≠ [] → (∃ b0 ∈ blocks, b0.bbox = none) →
        sort_blocks_by_reading_order ct blocks w = .error ())
      ∧ (b.bbox = none → markBlock margin heights pages i b = b)
      ∧ (b.bbox = none → headerCand margin (pageHeightAt heights i) b = false
          ∧ footerCand margin (pageHeightAt heights i) b = false) := by
  refine ⟨?_, ?_, ?_⟩
  · rintro hne ⟨b0, hb0mem, hb0⟩
    unfold sort_blocks_by_reading_order
    rw [if_neg hne, if_neg]
    intro hall
    rw [List.all_eq_true] at hall
    have := hall b0 hb0mem
    rw [hb0] at this
    exact absurd this (by simp)
  · intro hbb
    unfold markBlock
    rw [hbb]
  · intro hbb
    constructor
    · unfold headerCand; rw [hbb]
    · unfold footerCand; rw [hbb]

theorem missing_bbox_handling_witness :
    (([c4NoBbox] : List Block) ≠ [] ∧ (∃ b0 ∈ ([c4NoBbox] : List Block), b0.bbox = none)
        ∧ c4NoBbox.bbox = none)
      ∧ sort_blocks_by_reading_order (3 / 10) [c4NoBbox] 500 = .error ()
      ∧ markBlock (1 / 10) [800] [] 0 c4NoBbox = c4NoBbox :=
  ⟨⟨by decide, ⟨c4NoBbox, by decide, by decide⟩, by decide⟩,
    (missing_bbox_handling (3 / 10) 500 (1 / 10) [c4NoBbox] [800] [] 0 c4NoBbox).1
      (by decide) ⟨c4NoBbox, by decide, by decide⟩,
    (missing_bbox_handling (3 / 10) 500 (1 / 10) [c4NoBbox] [800] [] 0 c4NoBbox).2.1 (by decide)⟩

/-! ### Stable-sort theory

Facts about `List.insertionSort` (the model of Python's stable sorts) needed
for the reading-order claims: congruence, composition of two stable sorts into
one lexicographic stable sort, and distribution over key-separated
concatenations. -/

/-- The lexicographic refinement of the key order `keyLE k` by a tie-breaking
relation `r`: strictly smaller key, or equal keys and `r`. -/
def lexR {α : Type} (k : α → ℚ) (r : α → α → Prop) (a b : α) : Prop :=
  k a < k b ∨ (k a = k b ∧ r a b)

instance {α : Type} (k : α → ℚ) (r : α → α → Prop) [DecidableRel r] :
    DecidableRel (lexR k r) :=
  fun a b => inferInstanceAs (Decidable (k a < k b ∨ (k a = k b ∧ r a b)))

theorem lexR_iff_of_not {α : Type} (k : α → ℚ) (r : α → α → Prop) {x m : α}
    (hxm : ¬ r x m) : lexR k r x m ↔ k x < k m := by
  unfold lexR
  constructor
  · rintro (h | ⟨-, hr⟩)
    · exact h
    · exact absurd hr hxm
  · exact Or.inl

theorem lexR_total {α : Type} (k : α → ℚ) (r : α → α → Prop)
    (htot : ∀ a b, r a b ∨ r b a) (a b : α) : lexR k r a b ∨ lexR k r b a := by
  rcases lt_trichotomy (k a) (k b) with h | h | h
  · exact Or.inl (Or.inl h)
  · rcases htot a b with hr | hr
    · exact Or.inl (Or.inr ⟨h, hr⟩)
    · exact Or.inr (Or.inr ⟨h.symm, hr⟩)
  · exact Or.inr (Or.inl h)

theorem lexR_trans {α : Type} (k : α → ℚ) (r : α → α → Prop)
    (htr : ∀ a b c, r a b → r b c → r a c) (a b c : α)
    (hab : lexR k r a b) (hbc : lexR k r b c) : lexR k r a c := by
  rcases hab with h1 | ⟨he1, hr1⟩
  · rcases hbc with h2 | ⟨he2, -⟩
    · exact Or.inl (h1.trans h2)
    · exact Or.inl (he2 ▸ h1)
  · rcases hbc with h2 | ⟨he2, hr2⟩
    · exact Or.inl (he1 ▸ h2)
    · exact Or.inr ⟨he1.trans he2, htr a b c hr1 hr2⟩

theorem orderedInsert_congr {α : Type} (p q : α → α → Prop)
    [DecidableRel p] [DecidableRel q] (x : α) :
    ∀ (N : List α), (∀ n ∈ N, p x n ↔ q x n) →
    N.orderedInsert p x = N.orderedInsert q x := by
  intro N
  induction N with
  | nil => intro _; rfl
  | cons n N ih =>
    intro h
    by_cases hp : p x n
    · rw [List.orderedInsert, List.orderedInsert, if_pos hp,
        if_pos ((h n (List.mem_cons_self n N)).mp hp)]
    · rw [List.orderedInsert, List.orderedInsert, if_neg hp,
        if_neg (fun hq => hp ((h n (List.mem_cons_self n N)).mpr hq)),
        ih (fun n' hn' => h n' (List.mem_cons_of_mem n hn'))]

theorem insertionSort_congr {α : Type} (p q : α → α → Prop)
    [DecidableRel p] [DecidableRel q] (h : ∀ a b, p a b ↔ q a b) :
    ∀ (l : List α), l.insertionSort p = l.insertionSort q := by
  intro l
  induction l with
  | nil => rfl
  | cons a l ih =>
    rw [List.insertionSort, List.insertionSort, ih]
    exact orderedInsert_congr p q a (l.insertionSort q) (fun n _ => h a n)

theorem orderedInsert_comm_keyLE_lexR {α : Type} (k : α → ℚ) (r : α → α → Prop)
    [DecidableRel r] (x m : α) (hxm : ¬ r x m) :
    ∀ (N : List α),
    List.orderedInsert (keyLE k) m (List.orderedInsert (lexR k r) x N)
      = List.orderedInsert (lexR k r) x (List.orderedInsert (keyLE k) m N) := by
  intro N
  induction N with
  | nil =>
    by_cases hmx : keyLE k m x
    · have hxmlex : ¬ lexR k r x m := by
        rw [lexR_iff_of_not k r hxm]
        exact not_lt_of_le hmx
      simp [List.orderedInsert, hmx, hxmlex]
    · have hxmlex : lexR k r x m := by
        rw [lexR_iff_of_not k r hxm]
        exact lt_of_not_le hmx
      simp [List.orderedInsert, hmx, hxmlex]
  | cons n N ih =>
    by_cases hp : keyLE k m n <;> by_cases hq : lexR k r x n
    · by_cases hmx : keyLE k m x
      · have hxmlex : ¬ lexR k r x m := by
          rw [lexR_iff_of_not k r hxm]
          exact not_lt_of_le hmx
        simp [List.orderedInsert, hp, hq, hmx, hxmlex]
      · have hxmlex : lexR k r x m := by
          rw [lexR_iff_of_not k r hxm]
          exact lt_of_not_le hmx
        simp [List.orderedInsert, hp, hq, hmx, hxmlex]
    · have hxmlex : ¬ lexR k r x m := by
        rw [lexR_iff_of_not k r hxm]
        intro hlt
        apply hq
        exact Or.inl (lt_of_lt_of_le hlt hp)
      simp [List.orderedInsert, hp, hq, hxmlex]
    · have hxn : k x ≤ k n := by
        rcases hq with h | ⟨he, -⟩
        · exact le_of_lt h
        · exact le_of_eq he
      have hmx : ¬ keyLE k m x := by
        unfold keyLE at hp ⊢
        intro hle
        exact hp (le_trans hle hxn)
      simp [List.orderedInsert, hp, hq, hmx]
    · simp [List.orderedInsert, hp, hq, ih]

theorem insertionSort_keyLE_orderedInsert {α : Type} (k : α → ℚ) (r : α → α → Prop)
    [DecidableRel r] (htr : ∀ a b c, r a b → r b c → r a c) (x : α) :
    ∀ (M : List α), M.Sorted r →
    List.insertionSort (keyLE k) (List.orderedInsert r x M)
      = List.orderedInsert (lexR k r) x (List.insertionSort (keyLE k) M) := by
  intro M
  induction M with
  | nil => intro _; rfl
  | cons m M ih =>
    intro hsort
    by_cases hxm : r x m
    · rw [List.orderedInsert, if_pos hxm, List.insertionSort]
      apply orderedInsert_congr
      intro n hn
      have hn' : n ∈ m :: M := (List.mem_insertionSort (keyLE k)).mp hn
      have hrxn : r x n := by
        rcases List.mem_cons.mp hn' with rfl | hmem
        · exact hxm
        · exact htr x m n hxm (List.rel_of_sorted_cons hsort n hmem)
      unfold keyLE lexR
      constructor
      · intro hle
        rcases lt_or_eq_of_le hle with hlt | heq
        · exact Or.inl hlt
        · exact Or.inr ⟨heq, hrxn⟩
      · rintro (hlt | ⟨heq, -⟩)
        · exact le_of_lt hlt
        · exact le_of_eq heq
    · rw [List.orderedInsert, if_neg hxm, List.insertionSort, List.insertionSort,
        ih hsort.of_cons]
      exact orderedInsert_comm_keyLE_lexR k r x m hxm (M.insertionSort (keyLE k))

/-- Composing two stable sorts: stably sorting by key `k` a list already
stably sorted by `r` equals one stable sort by the lexicographic order
(`k` first, ties broken by `r`). -/
theorem insertionSort_insertionSort {α : Type} (k : α → ℚ) (r : α → α → Prop)
    [DecidableRel r] (htot : ∀ a b, r a b ∨ r b a)
    (htr : ∀ a b c, r a b → r b c → r a c) (l : List α) :
    List.insertionSort (keyLE k) (List.insertionSort r l)
      = List.insertionSort (lexR k r) l := by
  haveI : IsTotal α r := ⟨htot⟩
  haveI : IsTrans α r := ⟨htr⟩
  induction l with
  | nil => rfl
  | cons a l ih =>
    rw [List.insertionSort,
      insertionSort_keyLE_orderedInsert k r htr a (l.insertionSort r)
        (List.sorted_insertionSort r l),
      ih]
    rfl

theorem orderedInsert_keyLE_append {α : Type} (k : α → ℚ) (a : α) (B : List α)
    (hB : ∀ b ∈ B, k a ≤ k b) :
    ∀ (A : List α), List.orderedInsert (keyLE k) a (A ++ B)
      = List.orderedInsert (keyLE k) a A ++ B := by
  intro A
  induction A with
  | nil =>
    cases B with
    | nil => rfl
    | cons b B' =>
      have hab : keyLE k a b := hB b (List.mem_cons_self b B')
      simp [List.orderedInsert, hab]
  | cons x A' ih =>
    by_cases hax : keyLE k a x
    · simp [List.orderedInsert, hax]
    · simp [List.orderedInsert, hax, ih]

theorem insertionSort_keyLE_append {α : Type} (k : α → ℚ) (B : List α) :
    ∀ (A : List α), (∀ a ∈ A, ∀ b ∈ B, k a ≤ k b) →
    List.insertionSort (keyLE k) (A ++ B)
      = List.insertionSort (keyLE k) A ++ List.insertionSort (keyLE k) B := by
  intro A
  induction A with
  | nil => intro _; rfl
  | cons a A' ih =>
    intro hsep
    rw [List.cons_append, List.insertionSort, List.insertionSort,
      ih (fun a' ha' b hb => hsep a' (List.mem_cons_of_mem a ha') b hb)]
    apply orderedInsert_keyLE_append
    intro b hb
    exact hsep a (List.mem_cons_self a A') b ((List.mem_insertionSort (keyLE k)).mp hb)

theorem insertionSort_keyLE_flatten {α : Type} (k : α → ℚ) :
    ∀ (parts : List (List α)),
    parts.Pairwise (fun X Y => ∀ a ∈ X, ∀ b ∈ Y, k a ≤ k b) →
    List.insertionSort (keyLE k) parts.flatten
      = (parts.map (List.insertionSort (keyLE k))).flatten := by
  intro parts
  induction parts with
  | nil => intro _; rfl
  | cons X parts ih =>
    intro hp
    rw [List.flatten_cons, List.map_cons, List.flatten_cons,
      insertionSort_keyLE_append k parts.flatten X ?hsep,
      ih (List.pairwise_cons.mp hp).2]
    case hsep =>
      intro a ha b hb
      obtain ⟨Y, hY, hbY⟩ := List.mem_flatten.mp hb
      exact (List.pairwise_cons.mp hp).1 Y hY a ha b hbY

/-! ### Cluster structure

The clustering loop cuts the midpoint-sorted list into contiguous segments
whose boundaries depend only on the midpoint values. `chop` / `clusterLens`
make this explicit. -/

/-- Cut a list into consecutive pieces of the given lengths. -/
def chop {α : Type} : List Nat → List α → List (List α)
  | [], _ => []
  | n :: ns, l => l.take n :: chop ns (l.drop n)

/-- The segment lengths chosen by the clustering loop, computed from the
midpoint values only (`kk` is the current column's length so far). -/
def clusterLens (th : ℚ) : List ℚ → Nat → Option ℚ → List Nat
  | [], kk, _ => if kk = 0 then [] else [kk]
  | x :: xs, kk, none => clusterLens th xs (kk + 1) (some x)
  | x :: xs, kk, some cx =>
    if |x - cx| < th then clusterLens th xs (kk + 1) (some ((cx + x) / 2))
    else if kk = 0 then clusterLens th xs 1 (some x)
    else kk :: clusterLens th xs 1 (some x)

theorem clusterFold_chop (th : ℚ) : ∀ (bs : List Block) (cols : List (List Block))
    (cur : List Block) (curx : Option ℚ),
    (let st := bs.foldl (clusterStep th) (cols, cur, curx);
      if st.2.1 = [] then st.1 else st.1 ++ [st.2.1])
      = cols ++ chop (clusterLens th (bs.map xmid) cur.length curx) (cur ++ bs) := by
  intro bs
  induction bs with
  | nil =>
    intro cols cur curx
    simp only [List.foldl_nil, List.map_nil, List.append_nil]
    by_cases hc : cur = []
    · subst hc
      simp [clusterLens, chop]
    · have hlen : cur.length ≠ 0 := fun h => hc (List.length_eq_zero.mp h)
      rw [clusterLens, if_neg hlen]
      simp [chop, hc, List.take_length]
  | cons b bs ih =>
    intro cols cur curx
    simp only [List.foldl_cons, List.map_cons]
    cases curx with
    | none =>
      have hstep : clusterStep th (cols, cur, none) b = (cols, cur ++ [b], some (xmid b)) := rfl
      rw [hstep, ih cols (cur ++ [b]) (some (xmid b))]
      simp [clusterLens, List.append_assoc]
    | some cx =>
      by_cases hj : |xmid b - cx| < th
      · have hstep : clusterStep th (cols, cur, some cx) b
            = (cols, cur ++ [b], some ((cx + xmid b) / 2)) := by
          unfold clusterStep
          dsimp only
          rw [if_pos hj]
        rw [hstep, ih cols (cur ++ [b]) (some ((cx + xmid b) / 2))]
        simp [clusterLens, hj, List.append_assoc]
      · have hstep : clusterStep th (cols, cur, some cx) b
            = ((if cur = [] then cols else cols ++ [cur]), [b], some (xmid b)) := by
          unfold clusterStep
          dsimp only
          rw [if_neg hj]
        rw [hstep, ih (if cur = [] then cols else cols ++ [cur]) [b] (some (xmid b))]
        by_cases hc : cur = []
        · subst hc
          simp [clusterLens, hj]
        · have hlen : cur.length ≠ 0 := fun h => hc (List.length_eq_zero.mp h)
          rw [if_neg hc, clusterLens, if_neg hj, if_neg hlen, chop, List.take_left,
            List.drop_left]
          simp [List.append_assoc]

theorem cluster_eq_chop (th : ℚ) (bs : List Block) :
    cluster th bs = chop (clusterLens th (bs.map xmid) 0 none) bs := by
  have h := clusterFold_chop th bs [] [] none
  simpa [cluster, clusterFold] using h

theorem clusterLens_sum (th : ℚ) : ∀ (xs : List ℚ) (kk : Nat) (cx : Option ℚ),
    (clusterLens th xs kk cx).sum = kk + xs.length := by
  intro xs
  induction xs with
  | nil =>
    intro kk cx
    by_cases hk : kk = 0 <;> simp [clusterLens, hk]
  | cons x xs ih =>
    intro kk cx
    cases cx with
    | none =>
      rw [clusterLens, ih]
      simp
      omega
    | some c =>
      by_cases hj : |x - c| < th
      · rw [clusterLens, if_pos hj, ih]
        simp
        omega
      · by_cases hk : kk = 0
        · rw [clusterLens, if_neg hj, if_pos hk, ih, hk]
          simp
          omega
        · rw [clusterLens, if_neg hj, if_neg hk, List.sum_cons, ih]
          simp
          omega

theorem map_length_chop {α : Type} : ∀ (L : List Nat) (l : List α), L.sum ≤ l.length →
    (chop L l).map List.length = L := by
  intro L
  induction L with
  | nil => intro l _; rfl
  | cons n ns ih =>
    intro l hsum
    rw [List.sum_cons] at hsum
    rw [chop, List.map_cons, List.length_take,
      ih (l.drop n) (by rw [List.length_drop]; omega),
      Nat.min_eq_left (show n ≤ l.length by omega)]

theorem flatten_chop {α : Type} : ∀ (L : List Nat) (l : List α), L.sum = l.length →
    (chop L l).flatten = l := by
  intro L
  induction L with
  | nil =>
    intro l hsum
    rw [List.sum_nil] at hsum
    rw [List.length_eq_zero.mp hsum.symm]
    rfl
  | cons n ns ih =>
    intro l hsum
    rw [List.sum_cons] at hsum
    rw [chop, List.flatten_cons, ih (l.drop n) (by rw [List.length_drop]; omega),
      List.take_append_drop]

theorem chop_flatten_of_map_length {α : Type} : ∀ (ps : List (List α)),
    chop (ps.map List.length) ps.flatten = ps := by
  intro ps
  induction ps with
  | nil => rfl
  | cons p ps ih =>
    rw [List.map_cons, List.flatten_cons, chop, List.take_left, List.drop_left, ih]

theorem mem_chop_sublist {α : Type} : ∀ (L : List Nat) (l : List α) (X : List α),
    X ∈ chop L l → X.Sublist l := by
  intro L
  induction L with
  | nil => intro l X hX; exact absurd hX (List.not_mem_nil X)
  | cons n ns ih =>
    intro l X hX
    rcases List.mem_cons.mp hX with rfl | hmem
    · exact List.take_sublist n l
    · exact (ih (l.drop n) X hmem).trans (List.drop_sublist n l)

/-- The clustering loop partitions its input: concatenating the columns gives
back the input list. -/
theorem cluster_flatten (th : ℚ) (bs : List Block) : (cluster th bs).flatten = bs := by
  rw [cluster_eq_chop]
  apply flatten_chop
  rw [clusterLens_sum]
  simp

theorem mem_cluster_sorted (th : ℚ) (bs : List Block)
    (hb : List.Sorted (keyLE xmid) bs) :
    ∀ C ∈ cluster th bs, List.Sorted (keyLE xmid) C := by
  intro C hC
  rw [cluster_eq_chop] at hC
  exact List.Pairwise.sublist (mem_chop_sublist _ _ _ hC) hb

/-- Strict midpoint separation between two columns. -/
def sepLT (X Y : List Block) : Prop := ∀ a ∈ X, ∀ b ∈ Y, xmid a < xmid b

theorem sorted_le_getLast (k : Block → ℚ) :
    ∀ (l : List Block) (hne : l ≠ []), List.Sorted (keyLE k) l →
      ∀ a ∈ l, k a ≤ k (l.getLast hne) := by
  intro l
  induction l with
  | nil => intro hne; exact absurd rfl hne
  | cons x l ih =>
    intro hne hs a ha
    cases l with
    | nil =>
      rcases List.mem_singleton.mp ha with rfl
      exact le_refl _
    | cons y l' =>
      rw [List.getLast_cons (by simp)]
      rcases List.mem_cons.mp ha with rfl | hmem
      · exact List.rel_of_sorted_cons hs _ (List.getLast_mem (by simp))
      · exact ih (by simp) hs.of_cons a hmem

/-- The core separation property of the clustering loop: with a positive
threshold and a midpoint-sorted input, the produced columns are pairwise
strictly separated in midpoint (an element with the same midpoint as the
current column's last member always joins that column, because the reference
stays within `threshold` of the last member — its distance is halved at every
join). Stated over an arbitrary loop state with the needed invariants. -/
theorem cluster_sep_invariant (th : ℚ) (hth : 0 < th) :
    ∀ (bs : List Block) (cols : List (List Block)) (cur : List Block) (curx : Option ℚ),
    List.Sorted (keyLE xmid) (cur ++ bs) →
    cols.Pairwise sepLT →
    (∀ X ∈ cols, ∀ a ∈ X, ∀ c ∈ cur, xmid a < xmid c) →
    (∀ X ∈ cols, ∀ a ∈ X, ∀ b ∈ bs, xmid a < xmid b) →
    (∀ hne : cur ≠ [], ∃ cx, curx = some cx ∧ |xmid (cur.getLast hne) - cx| < th) →
    (let st := bs.foldl (clusterStep th) (cols, cur, curx);
      if st.2.1 = [] then st.1 else st.1 ++ [st.2.1]).Pairwise sepLT := by
  intro bs
  induction bs with
  | nil =>
    intro cols cur curx hs hsep hcc hcb hJ
    simp only [List.foldl_nil]
    by_cases hc : cur = []
    · simpa [hc] using hsep
    · rw [if_neg hc, List.pairwise_append]
      refine ⟨hsep, List.pairwise_singleton _ _, ?_⟩
      intro X hX Y hY
      rcases List.mem_singleton.mp hY with rfl
      intro a ha c hc'
      exact hcc X hX a ha c hc'
  | cons b bs ih =>
    intro cols cur curx hs hsep hcc hcb hJ
    simp only [List.foldl_cons]
    cases curx with
    | none =>
      have hc : cur = [] := by
        by_contra hne
        obtain ⟨cx, hcx, -⟩ := hJ hne
        exact Option.noConfusion hcx
      subst hc
      have hstep : clusterStep th (cols, ([] : List Block), none) b
          = (cols, [b], some (xmid b)) := rfl
      rw [hstep]
      apply ih cols [b] (some (xmid b))
      · simpa using hs
      · exact hsep
      · intro X hX a ha c hc'
        rcases List.mem_singleton.mp hc' with rfl
        exact hcb X hX a ha _ (List.mem_cons_self _ _)
      · intro X hX a ha b' hb'
        exact hcb X hX a ha b' (List.mem_cons_of_mem b hb')
      · intro hne
        exact ⟨xmid b, rfl, by simpa using hth⟩
    | some cx =>
      by_cases hj : |xmid b - cx| < th
      · have hstep : clusterStep th (cols, cur, some cx) b
            = (cols, cur ++ [b], some ((cx + xmid b) / 2)) := by
          unfold clusterStep
          dsimp only
          rw [if_pos hj]
        rw [hstep]
        apply ih cols (cur ++ [b]) (some ((cx + xmid b) / 2))
        · rw [List.append_assoc]
          simpa using hs
        · exact hsep
        · intro X hX a ha c hc'
          rcases List.mem_append.mp hc' with hcur | hb1
          · exact hcc X hX a ha c hcur
          · rcases List.mem_singleton.mp hb1 with rfl
            exact hcb X hX a ha _ (List.mem_cons_self _ _)
        · intro X hX a ha b' hb'
          exact hcb X hX a ha b' (List.mem_cons_of_mem b hb')
        · intro hne
          refine ⟨(cx + xmid b) / 2, rfl, ?_⟩
          rw [List.getLast_concat]
          have heq : xmid b - (cx + xmid b) / 2 = (xmid b - cx) / 2 := by ring
          rw [heq, abs_div, abs_two]
          linarith [abs_nonneg (xmid b - cx)]
      · have hstep : clusterStep th (cols, cur, some cx) b
            = ((if cur = [] then cols else cols ++ [cur]), [b], some (xmid b)) := by
          unfold clusterStep
          dsimp only
          rw [if_neg hj]
        rw [hstep]
        have hcurb : ∀ a ∈ cur, xmid a < xmid b := by
          intro a ha
          have hne : cur ≠ [] := fun h => by
            subst h
            exact absurd ha (List.not_mem_nil a)
          obtain ⟨cx', hcx', hlast⟩ := hJ hne
          injection hcx' with hcx'
          subst hcx'
          have hle : xmid a ≤ xmid (cur.getLast hne) :=
            sorted_le_getLast xmid cur hne (List.pairwise_append.mp hs).1 a ha
          have hlcb : xmid (cur.getLast hne) ≤ xmid b :=
            (List.pairwise_append.mp hs).2.2 _ (List.getLast_mem hne) b
              (List.mem_cons_self b bs)
          rcases lt_or_eq_of_le hlcb with hlt | heq
          · exact lt_of_le_of_lt hle hlt
          · exact absurd (heq ▸ hlast) hj
        apply ih (if cur = [] then cols else cols ++ [cur]) [b] (some (xmid b))
        · apply List.Pairwise.sublist _ hs
          simp only [List.singleton_append]
          exact List.sublist_append_right cur (b :: bs)
        · by_cases hc : cur = []
          · simpa [hc] using hsep
          · rw [if_neg hc, List.pairwise_append]
            refine ⟨hsep, List.pairwise_singleton _ _, ?_⟩
            intro X hX Y hY
            rcases List.mem_singleton.mp hY with rfl
            intro a ha c hc'
            exact hcc X hX a ha c hc'
        · intro X hX a ha c hc'
          rcases List.mem_singleton.mp hc' with rfl
          by_cases hc0 : cur = []
          · rw [if_pos hc0] at hX
            exact hcb X hX a ha _ (List.mem_cons_self _ _)
          · rw [if_neg hc0] at hX
            rcases List.mem_append.mp hX with hXc | hXcur
            · exact hcb X hXc a ha _ (List.mem_cons_self _ _)
            · rcases List.mem_singleton.mp hXcur with rfl
              exact hcurb a ha
        · intro X hX a ha b' hb'
          have hbb' : xmid b ≤ xmid b' :=
            List.rel_of_sorted_cons (List.pairwise_append.mp hs).2.1 b' hb'
          by_cases hc0 : cur = []
          · rw [if_pos hc0] at hX
            exact hcb X hX a ha b' (List.mem_cons_of_mem b hb')
          · rw [if_neg hc0] at hX
            rcases List.mem_append.mp hX with hXc | hXcur
            · exact hcb X hXc a ha b' (List.mem_cons_of_mem b hb')
            · rcases List.mem_singleton.mp hXcur with rfl
              exact lt_of_lt_of_le (hcurb a ha) hbb'
        · intro hne
          exact ⟨xmid b, rfl, by simpa using hth⟩

/-- For a positive threshold and sorted input, the clustering produces
pairwise strictly separated columns. -/
theorem cluster_pairwise_sep (th : ℚ) (hth : 0 < th) (bs : List Block)
    (hs : List.Sorted (keyLE xmid) bs) : (cluster th bs).Pairwise sepLT := by
  have h := cluster_sep_invariant th hth bs [] [] none (by simpa using hs)
    (List.Pairwise.nil) (by intro X hX; exact absurd hX (List.not_mem_nil X))
    (by intro X hX; exact absurd hX (List.not_mem_nil X))
    (by intro hne; exact absurd rfl hne)
  simpa [cluster, clusterFold] using h

theorem keyLE_total {α : Type} (k : α → ℚ) : ∀ a b, keyLE k a b ∨ keyLE k b a :=
  fun a b => le_total (k a) (k b)

theorem keyLE_trans {α : Type} (k : α → ℚ) :
    ∀ a b c, keyLE k a b → keyLE k b c → keyLE k a c :=
  fun _ _ _ => le_trans

theorem sorted_map_key {α : Type} (k : α → ℚ) (l : List α)
    (h : List.Sorted (keyLE k) l) : List.Sorted (· ≤ ·) (l.map k) :=
  List.pairwise_map.mpr h

theorem midsort_sorted (l : List Block) : List.Sorted (keyLE xmid) (midsort l) := by
  haveI : IsTotal Block (keyLE xmid) := ⟨keyLE_total xmid⟩
  haveI : IsTrans Block (keyLE xmid) := ⟨keyLE_trans xmid⟩
  exact List.sorted_insertionSort _ l

theorem midsort_idem (l : List Block) : midsort (midsort l) = midsort l :=
  List.Sorted.insertionSort_eq (midsort_sorted l)

/-- The per-column key step: re-sorting a top-sorted column by midpoint and
top-sorting again reproduces the top-sorted column, because all three lists
are stable sorts of the same midpoint-sorted column and the composed
lexicographic orders coincide. -/
theorem ysort_midsort_ysort (C : List Block) (hC : List.Sorted (keyLE xmid) C) :
    ysort (midsort (ysort C)) = ysort C := by
  unfold ysort midsort
  rw [insertionSort_insertionSort xmid (keyLE ytop) (keyLE_total ytop) (keyLE_trans ytop),
    insertionSort_insertionSort ytop (lexR xmid (keyLE ytop))
      (lexR_total xmid (keyLE ytop) (keyLE_total ytop))
      (lexR_trans xmid (keyLE ytop) (keyLE_trans ytop))]
  conv_rhs => rw [← List.Sorted.insertionSort_eq hC]
  rw [insertionSort_insertionSort ytop (keyLE xmid) (keyLE_total xmid) (keyLE_trans xmid)]
  apply insertionSort_congr
  intro a b
  unfold lexR keyLE
  constructor
  · rintro (h | ⟨he, h2 | ⟨he2, -⟩⟩)
    · exact Or.inl h
    · exact Or.inr ⟨he, le_of_lt h2⟩
    · exact Or.inr ⟨he, le_of_eq he2⟩
  · rintro (h | ⟨he, h2⟩)
    · exact Or.inl h
    · rcases lt_or_eq_of_le h2 with h3 | h3
      · exact Or.inr ⟨he, Or.inl h3⟩
      · exact Or.inr ⟨he, Or.inr ⟨h3, le_of_eq he⟩⟩

theorem cluster_nonpos_go (th : ℚ) (hth : th ≤ 0) :
    ∀ (bs : List Block) (cols : List (List Block)) (c : Block) (cx : ℚ),
    (let st := bs.foldl (clusterStep th) (cols, [c], some cx);
      if st.2.1 = [] then st.1 else st.1 ++ [st.2.1])
      = cols ++ [c] :: bs.map (fun b => [b]) := by
  intro bs
  induction bs with
  | nil => intro cols c cx; simp
  | cons b bs ih =>
    intro cols c cx
    have hnj : ¬ |xmid b - cx| < th := not_lt.mpr (le_trans hth (abs_nonneg _))
    have hstep : clusterStep th (cols, [c], some cx) b
        = (cols ++ [[c]], [b], some (xmid b)) := by
      unfold clusterStep
      dsimp only
      rw [if_neg hnj, if_neg (by simp)]
    simp only [List.foldl_cons, hstep, ih (cols ++ [[c]]) b (xmid b)]
    simp

/-- With a non-positive threshold every block becomes its own column. -/
theorem cluster_nonpos_singletons (th : ℚ) (hth : th ≤ 0) (bs : List Block) :
    cluster th bs = bs.map (fun b => [b]) := by
  cases bs with
  | nil => rfl
  | cons b bs =>
    unfold cluster clusterFold
    simp only [List.foldl_cons]
    have hstep : clusterStep th ([], [], none) b = ([], [b], some (xmid b)) := rfl
    rw [hstep]
    simpa using cluster_nonpos_go th hth bs [] b (xmid b)

theorem flatten_map_singleton {α : Type} : ∀ (l : List α),
    (l.map (fun a => [a])).flatten = l := by
  intro l
  induction l with
  | nil => rfl
  | cons a l ih => simp [ih]

theorem flatten_map_ysort_perm : ∀ (ls : List (List Block)),
    ((ls.map ysort).flatten).Perm ls.flatten := by
  intro ls
  induction ls with
  | nil => exact List.Perm.nil
  | cons X ls ih =>
    simp only [List.map_cons, List.flatten_cons]
    exact (List.perm_insertionSort _ X).append ih

/-- Idempotence of the resolver body for any threshold. -/
theorem resolve_body_idem (th : ℚ) (l : List Block) :
    ((cluster th (midsort (((cluster th (midsort l)).map ysort).flatten))).map ysort).flatten
      = ((cluster th (midsort l)).map ysort).flatten := by
  by_cases hth : 0 < th
  · -- positive threshold: columns are strictly separated
    have hSsorted : List.Sorted (keyLE xmid) (midsort l) := midsort_sorted l
    set S := midsort l with hS
    set Cs := cluster th S with hCs
    have hsep : Cs.Pairwise sepLT := cluster_pairwise_sep th hth S hSsorted
    have hflat : Cs.flatten = S := cluster_flatten th S
    have hsortcol : ∀ C ∈ Cs, List.Sorted (keyLE xmid) C := mem_cluster_sorted th S hSsorted
    have hsep' : (Cs.map ysort).Pairwise (fun X Y => ∀ a ∈ X, ∀ b ∈ Y, xmid a ≤ xmid b) :=
      List.pairwise_map.mpr (hsep.imp (fun h a ha b hb =>
        le_of_lt (h a ((List.mem_insertionSort _).mp ha) b ((List.mem_insertionSort _).mp hb))))
    have hstep1 : midsort ((Cs.map ysort).flatten)
        = (Cs.map (fun C => midsort (ysort C))).flatten := by
      unfold midsort
      rw [insertionSort_keyLE_flatten xmid (Cs.map ysort) hsep', List.map_map]
      rfl
    have hvals : ∀ C ∈ Cs, (midsort (ysort C)).map xmid = C.map xmid := by
      intro C hC
      exact List.eq_of_perm_of_sorted
        (((List.perm_insertionSort _ _).trans (List.perm_insertionSort _ _)).map xmid)
        (sorted_map_key xmid _ (midsort_sorted _))
        (sorted_map_key xmid C (hsortcol C hC))
    have hmapflat : ((Cs.map (fun C => midsort (ysort C))).flatten).map xmid = S.map xmid := by
      rw [← hflat, List.map_flatten, List.map_flatten, List.map_map]
      congr 1
      apply List.map_congr_left
      intro C hC
      exact hvals C hC
    have hlenseq : Cs.map List.length = clusterLens th (S.map xmid) 0 none := by
      rw [hCs, cluster_eq_chop]
      apply map_length_chop
      rw [clusterLens_sum]
      simp
    have hDlens : (Cs.map (fun C => midsort (ysort C))).map List.length
        = clusterLens th (S.map xmid) 0 none := by
      rw [List.map_map, ← hlenseq]
      apply List.map_congr_left
      intro C _
      simp [midsort, ysort]
    have hstep2 : cluster th ((Cs.map (fun C => midsort (ysort C))).flatten)
        = Cs.map (fun C => midsort (ysort C)) := by
      rw [cluster_eq_chop, hmapflat, ← hDlens, chop_flatten_of_map_length]
    rw [hstep1, hstep2, List.map_map]
    congr 1
    apply List.map_congr_left
    intro C hC
    exact ysort_midsort_ysort C (hsortcol C hC)
  · -- non-positive threshold: every block its own column, resolver = midsort
    have hth' : th ≤ 0 := le_of_not_lt hth
    have hres : ∀ (m : List Block),
        ((cluster th (midsort m)).map ysort).flatten = midsort m := by
      intro m
      rw [cluster_nonpos_singletons th hth' (midsort m), List.map_map]
      have hcomp : ((fun b : Block => [b]) : Block → List Block) = ysort ∘ (fun b => [b]) :=
        funext (fun b => rfl)
      rw [← hcomp, flatten_map_singleton]
    rw [hres (((cluster th (midsort l)).map ysort).flatten), hres l, midsort_idem]

theorem resolveCore_idem (ct w : ℚ) (l : List Block) :
    resolveCore ct w (resolveCore ct w l) = resolveCore ct w l :=
  resolve_body_idem (w * ct) l

theorem resolveCore_perm (ct w : ℚ) (l : List Block) : (resolveCore ct w l).Perm l := by
  unfold resolveCore
  have h1 := flatten_map_ysort_perm (cluster (w * ct) (midsort l))
  rw [cluster_flatten] at h1
  exact h1.trans (List.perm_insertionSort _ l)

/-- C9: the reading-order resolver returns a permutation of its input. For
every block list whose members all have bounding boxes, every page width and
every column threshold, `_sort_blocks_by_reading_order` succeeds and its
output is a permutation of the input list: every input block appears exactly
once, completely unmodified, and nothing is dropped, duplicated or created. -/
theorem sort_blocks_by_reading_order_perm (ct w : ℚ) (blocks : List Block)
    (hb : ∀ b ∈ blocks, b.bbox.isSome = true) :
    ∃ m, sort_blocks_by_reading_order ct blocks w = Except.ok m ∧ m.Perm blocks := by
  by_cases hz : blocks = []
  · subst hz
    exact ⟨[], rfl, List.Perm.nil⟩
  · refine ⟨resolveCore ct w blocks, ?_, resolveCore_perm ct w blocks⟩
    unfold sort_blocks_by_reading_order
    rw [if_neg hz, if_pos (List.all_eq_true.mpr hb)]

def c9First : Block := Block.mk ("First".toList) false (some (50, 10, 150, 50)) false false

def c9Second : Block := Block.mk ("Second".toList) false (some (50, 100, 150, 150)) false false

def c9Third : Block := Block.mk ("Third".toList) false (some (50, 200, 150, 250)) false false

theorem sort_blocks_by_reading_order_perm_witness :
    ∃ m, sort_blocks_by_reading_order (3 / 10) [c9Third, c9First, c9Second] 500 = Except.ok m
      ∧ m.Perm [c9Third, c9First, c9Second] :=
  sort_blocks_by_reading_order_perm (3 / 10) 500 [c9Third, c9First, c9Second] (by decide)

/-- C7: the reading-order resolver is idempotent. For every block list whose
members all have bounding boxes, every page width and every column threshold,
`_sort_blocks_by_reading_order` succeeds, and applying it again to its own
output returns that output unchanged. -/
theorem sort_blocks_by_reading_order_idempotent (ct w : ℚ) (blocks : List Block)
    (hb : ∀ b ∈ blocks, b.bbox.isSome = true) :
    ∃ m, sort_blocks_by_reading_order ct blocks w = Except.ok m
      ∧ sort_blocks_by_reading_order ct m w = Except.ok m := by
  by_cases hz : blocks = []
  · subst hz
    exact ⟨[], rfl, rfl⟩
  · refine ⟨resolveCore ct w blocks, ?_, ?_⟩
    · unfold sort_blocks_by_reading_order
      rw [if_neg hz, if_pos (List.all_eq_true.mpr hb)]
    · have hperm : (resolveCore ct w blocks).Perm blocks := resolveCore_perm ct w blocks
      have hz' : resolveCore ct w blocks ≠ [] := by
        intro h
        apply hz
        have hlen := hperm.length_eq
        rw [h] at hlen
        exact List.length_eq_zero.mp hlen.symm
      have hb' : ∀ b ∈ resolveCore ct w blocks, b.bbox.isSome = true :=
        fun b hbm => hb b (hperm.mem_iff.mp hbm)
      unfold sort_blocks_by_reading_order
      rw [if_neg hz', if_pos (List.all_eq_true.mpr hb'), resolveCore_idem]

def c7Col1Top : Block := Block.mk ("Col1 Top".toList) false (some (50, 10, 150, 50)) false false

def c7Col1Bot : Block :=
  Block.mk ("Col1 Bottom".toList) false (some (50, 100, 150, 150)) false false

def c7Col2Top : Block := Block.mk ("Col2 Top".toList) false (some (350, 10, 450, 50)) false false

def c7Col2Bot : Block :=
  Block.mk ("Col2 Bottom".toList) false (some (350, 100, 450, 150)) false false

theorem sort_blocks_by_reading_order_idempotent_witness :
    ∃ m, sort_blocks_by_reading_order (3 / 10)
        [c7Col2Top, c7Col1Bot, c7Col1Top, c7Col2Bot] 500 = Except.ok m
      ∧ sort_blocks_by_reading_order (3 / 10) m 500 = Except.ok m :=
  sort_blocks_by_reading_order_idempotent (3 / 10) 500
    [c7Col2Top, c7Col1Bot, c7Col1Top, c7Col2Bot] (by decide)

end PdfExtractor
